import Mathlib

/-!
Verification development for the `osl-agent` neurosymbolic inference engine.

Shallow embedding of `src/knowshowgo/neuro/logic.py`, `src/knowshowgo/neuro/engine.py`
and `src/knowshowgo/neuro_service.py`:

* Python floats are modelled as rationals (`ℚ`); all the operations involved are
  exact field operations, comparisons, `abs`, `min`/`max`, so the dynamics agree.
* Python strings are modelled as lists of characters (`List Char`); Python string
  slicing and `startswith` are code-point based, exactly `List.take`/`List.drop`.
* Python dicts (which preserve insertion order and overwrite values in place)
  are modelled as association lists with an insert-or-overwrite `alistSet`.
* `raise ValueError(...)` is modelled with `Except (List Char)`.
* Optional dict fields (`d.get(key, default)`) are modelled as `Option` fields
  read with `Option.getD`.
-/

set_option maxHeartbeats 1000000
set_option maxRecDepth 100000

abbrev Name : Type := List Char

abbrev Err : Type := List Char

/-- Association-list lookup, modelling Python `d.get(k)` / `k in d`. -/
def alistGet {β : Type} : List (Name × β) → Name → Option β
  | [], _ => none
  | (k1, v) :: rest, k => if k1 = k then some v else alistGet rest k

/-- Association-list insert-or-overwrite, modelling Python `d[k] = v`
(an existing key keeps its position, a new key is appended at the end). -/
def alistSet {β : Type} : List (Name × β) → Name → β → List (Name × β)
  | [], k, v => [(k, v)]
  | (k1, v1) :: rest, k, v =>
    if k1 = k then (k, v) :: rest else (k1, v1) :: alistSet rest k v

/-- Python `max(a, b)` on two numbers (`b` when equal, as for floats). -/
def pymax (a b : ℚ) : ℚ := if a ≤ b then b else a

/-- Python `min(a, b)` on two numbers. -/
def pymin (a b : ℚ) : ℚ := if b ≤ a then b else a

/-- Python `abs(x)` on a number. -/
def pyabs (x : ℚ) : ℚ := if x < 0 then -x else x

/-! ## Logic kernel (`logic.py`) -/

/-- `clamp(value)`: clamps a value to the `[0, 1]` range. -/
def clamp (value : ℚ) : ℚ := pymax 0 (pymin 1 value)

/-- `fuzzy_not(a) = clamp(1 - a)`. -/
def fuzzy_not (a : ℚ) : ℚ := clamp (1 - a)

/-- `fuzzy_and(*values)`: Łukasiewicz T-norm `max(0, sum - (n-1))`;
empty AND is `1.0`, a single input is clamped. -/
def fuzzy_and (values : List ℚ) : ℚ :=
  match values with
  | [] => 1
  | [v] => clamp v
  | _ => clamp (values.sum - ((values.length : ℚ) - 1))

/-- `fuzzy_or(*values)`: Łukasiewicz T-conorm `min(1, sum)`;
empty OR is `0.0`, a single input is clamped. -/
def fuzzy_or (values : List ℚ) : ℚ :=
  match values with
  | [] => 0
  | [v] => clamp v
  | _ => clamp values.sum

/-- `implies(antecedent, consequent) = clamp(1 - antecedent + consequent)`. -/
def implies (antecedent consequent : ℚ) : ℚ := clamp (1 - antecedent + consequent)

/-- `equivalent(a, b) = clamp(1 - |a - b|)`. -/
def equivalent (a b : ℚ) : ℚ := clamp (1 - pyabs (a - b))

/-- `weighted_average(values)`: weighted mean of `(value, weight)` pairs,
`0.5` on an empty list or zero total weight. -/
def weighted_average (values : List (ℚ × ℚ)) : ℚ :=
  if values = [] then 1/2
  else
    let total_weight := (values.map (fun p => p.2)).sum
    if total_weight = 0 then 1/2
    else clamp ((values.map (fun p => p.1 * p.2)).sum / total_weight)

/-- `inhibit(target, attacker, weight) = clamp(target * (1 - attacker * weight))`. -/
def inhibit (target_value attacker_value weight : ℚ) : ℚ :=
  clamp (target_value * (1 - attacker_value * weight))

/-- `support(target, supporter, weight) = clamp(target + (1 - target) * supporter * weight)`. -/
def support (target_value supporter_value weight : ℚ) : ℚ :=
  clamp (target_value + (1 - target_value) * supporter_value * weight)

/-! String tags used by the engine (Python string constants). -/

def tIMPLICATION : Name := "IMPLICATION".toList
def tCONJUNCTION : Name := "CONJUNCTION".toList
def tDISJUNCTION : Name := "DISJUNCTION".toList
def tEQUIVALENCE : Name := "EQUIVALENCE".toList
def tIDENTITY : Name := "IDENTITY".toList
def tAND : Name := "AND".toList
def tOR : Name := "OR".toList
def tNOT : Name := "NOT".toList
def tWEIGHTED : Name := "WEIGHTED".toList
def tATTACK : Name := "ATTACK".toList
def tSUPPORT : Name := "SUPPORT".toList

/-- `apply_operation(op, inputs, weights=None)` from `logic.py`.
Raises (`.error`) `"Unknown operation: {op}"` on an unrecognised operator. -/
def apply_operation (op0 : Name) (inputs : List ℚ) (weights : Option (List ℚ)) :
    Except Err ℚ :=
  let op := op0.map Char.toUpper
  if op = tIDENTITY then
    .ok (match inputs with | [] => 1/2 | a :: _ => clamp a)
  else if op = tAND then .ok (fuzzy_and inputs)
  else if op = tOR then .ok (fuzzy_or inputs)
  else if op = tNOT then
    .ok (match inputs with | [] => 1/2 | a :: _ => fuzzy_not a)
  else if op = tWEIGHTED then
    .ok (match weights with
      | some ws =>
        if ws ≠ [] ∧ ws.length = inputs.length then weighted_average (inputs.zip ws)
        else if inputs = [] then 1/2 else inputs.sum / (inputs.length : ℚ)
      | none => if inputs = [] then 1/2 else inputs.sum / (inputs.length : ℚ))
  else .error ("Unknown operation: ".toList ++ op)

/-! ## Schema types (`types.py`) -/

/-- A declared variable: the fields of the `Variable` TypedDict that the
engine and bridge read (`type` is advisory, `prior` defaults to `0.5`,
`locked` defaults to `False`). -/
structure Variable where
  type : Option Name := none
  prior : Option ℚ := none
  locked : Option Bool := none
deriving DecidableEq

/-- A rule; optional fields model `rule.get(...)` defaults. -/
structure Rule where
  id : Name
  type : Option Name := none
  inputs : List Name := []
  output : Option Name := none
  op : Option Name := none
  weight : Option ℚ := none
  learnable : Option Bool := none
deriving DecidableEq

/-- A constraint target: Python stores either a single string or a list. -/
inductive CTarget where
  | single (v : Name)
  | multi (vs : List Name)
deriving DecidableEq

/-- A constraint; optional fields model `constraint.get(...)` defaults. -/
structure Constraint where
  id : Name
  type : Option Name := none
  source : Option Name := none
  target : Option CTarget := none
  weight : Option ℚ := none
deriving DecidableEq

/-- A NeuroJSON schema: named variables (`vars` — a dict, insertion ordered),
ordered rules, ordered constraints. -/
structure NeuroJSON where
  vars : List (Name × Variable) := []
  rules : List Rule := []
  constraints : List Constraint := []
deriving DecidableEq

/-- Runtime state of a variable (`VariableState`); the `lower`/`upper`/`gradient`
fields are never read by the engine and are omitted. -/
structure VariableState where
  value : ℚ := 1/2
  locked : Bool := false
deriving DecidableEq

/-- `EngineConfig` with its Python defaults. -/
structure EngineConfig where
  max_iterations : Nat := 100
  convergence_threshold : ℚ := 1/1000
  learning_rate : ℚ := 1/10
  damping_factor : ℚ := 1/2
deriving DecidableEq

/-- `create_default_config()`. -/
def create_default_config : EngineConfig := {}

abbrev States : Type := List (Name × VariableState)

/-! ## The engine (`engine.py`) -/

/-- The state of a `NeuroEngine` instance after `_load`. -/
structure NeuroEngine where
  config : EngineConfig
  vars : List (Name × Variable)
  rules : List (Name × Rule)
  constraints : List (Name × Constraint)
  states : States
  varToInputRules : List (Name × List Name)
  varToOutputRules : List (Name × List Name)
deriving DecidableEq

/-- The `VariableState` created at `_load` and reassigned at
`_reset_to_priors`: `value := prior` (note: not clamped),
`locked := declared locked flag`. -/
def mkVarState (var : Variable) : VariableState :=
  { value := var.prior.getD (1/2), locked := var.locked.getD false }

/-- The per-variable part of `_load`: registers the variable, creates its
state, and empty index entries. -/
def loadVarStep (e : NeuroEngine) (p : Name × Variable) : NeuroEngine :=
  { e with
    vars := alistSet e.vars p.1 p.2
    states := alistSet e.states p.1 (mkVarState p.2)
    varToInputRules := alistSet e.varToInputRules p.1 []
    varToOutputRules := alistSet e.varToOutputRules p.1 [] }

/-- The input indexing of one rule in `_load`: the rule id is appended to the
input-rule list of every declared input. -/
def inIndexStep (idx0 : List (Name × List Name)) (rule : Rule) : List (Name × List Name) :=
  rule.inputs.foldl (fun idx iv =>
    match alistGet idx iv with
    | some l => alistSet idx iv (l ++ [rule.id])
    | none => idx) idx0

/-- The output indexing of one rule in `_load`: the rule id is appended to the
output-rule list of the rule's output when that name is truthy and declared
(Python: `if output_var and output_var in self._var_to_output_rules`). -/
def outIndexStep (idx : List (Name × List Name)) (rule : Rule) : List (Name × List Name) :=
  match rule.output with
  | none => idx
  | some ov =>
    if ov ≠ [] then
      match alistGet idx ov with
      | some l => alistSet idx ov (l ++ [rule.id])
      | none => idx
    else idx

/-- The per-rule part of `_load`: stores the rule and indexes it by its
inputs and its output (the three updates read disjoint fields). -/
def loadRuleStep (e : NeuroEngine) (rule : Rule) : NeuroEngine :=
  { e with
    rules := alistSet e.rules rule.id rule
    varToInputRules := inIndexStep e.varToInputRules rule
    varToOutputRules := outIndexStep e.varToOutputRules rule }

/-- `NeuroEngine.__init__` / `_load`. -/
def NeuroEngine.load (schema : NeuroJSON) (config : EngineConfig) : NeuroEngine :=
  let e0 : NeuroEngine :=
    { config := config, vars := [], rules := [], constraints := [],
      states := [], varToInputRules := [], varToOutputRules := [] }
  let e1 := schema.vars.foldl loadVarStep e0
  let e2 := schema.rules.foldl loadRuleStep e1
  { e2 with
    constraints := schema.constraints.foldl (fun cs c => alistSet cs c.id c) e2.constraints }

/-- Input resolution in `_evaluate_rule`: `none` as soon as any input
name has no state. -/
def resolve_inputs (states : States) : List Name → Option (List ℚ)
  | [] => some []
  | n :: rest =>
    match alistGet states n with
    | none => none
    | some s => (resolve_inputs states rest).map (fun vs => s.value :: vs)

/-- `_evaluate_rule`: `.ok none` means the rule contributes nothing;
`.error` propagates the `ValueError` from `apply_operation`. -/
def evaluate_rule (states : States) (rule : Rule) : Except Err (Option ℚ) :=
  match resolve_inputs states rule.inputs with
  | none => .ok none
  | some input_values =>
    let rule_type := rule.type.getD tIMPLICATION
    let op := rule.op.getD tIDENTITY
    let weight := rule.weight.getD 1
    if rule_type = tIMPLICATION then
      match apply_operation op input_values none with
      | .error m => .error m
      | .ok antecedent => .ok (some (clamp (antecedent * weight)))
    else if rule_type = tCONJUNCTION then
      .ok (some (clamp (fuzzy_and input_values * weight)))
    else if rule_type = tDISJUNCTION then
      .ok (some (clamp (fuzzy_or input_values * weight)))
    else if rule_type = tEQUIVALENCE then
      match input_values with
      | a :: b :: _ => .ok (some (clamp (equivalent a b * weight)))
      | [a] => .ok (some (clamp (a * weight)))
      | [] => .ok (some (clamp ((1/2) * weight)))
    else .ok none

/-- The contribution-gathering loop of `_forward_pass`: for each rule id,
evaluate the rule and collect `(contributions, weights)` in order. -/
def gather_contributions (e : NeuroEngine) (states : States) :
    List Name → Except Err (List ℚ × List ℚ)
  | [] => .ok ([], [])
  | rid :: rest =>
    match alistGet e.rules rid with
    | none => gather_contributions e states rest  -- unreachable: index ids are stored rule ids
    | some rule =>
      match evaluate_rule states rule with
      | .error m => .error m
      | .ok none => gather_contributions e states rest
      | .ok (some v) =>
        match gather_contributions e states rest with
        | .error m => .error m
        | .ok (cs, ws) => .ok (v :: cs, rule.weight.getD 1 :: ws)

/-- The per-variable body of `_forward_pass`, iterating vars in
insertion order and threading the mutable states and the max delta. -/
def forward_vars (e : NeuroEngine) : List Name → States → ℚ → Except Err (States × ℚ)
  | [], states, max_delta => .ok (states, max_delta)
  | vn :: rest, states, max_delta =>
    let rule_ids := (alistGet e.varToOutputRules vn).getD []
    if rule_ids = [] then forward_vars e rest states max_delta
    else
      let state := (alistGet states vn).getD {}  -- key always present for declared vars
      if state.locked then forward_vars e rest states max_delta
      else
        match gather_contributions e states rule_ids with
        | .error m => .error m
        | .ok (contributions, weights) =>
          if contributions = [] then forward_vars e rest states max_delta
          else
            let old_value := state.value
            let total_weight := weights.sum
            let weighted_sum := ((contributions.zip weights).map (fun p => p.1 * p.2)).sum
            let new_contribution := if total_weight > 0 then weighted_sum / total_weight else 1/2
            let damped_value := e.config.damping_factor * new_contribution +
              (1 - e.config.damping_factor) * old_value
            forward_vars e rest
              (alistSet states vn { state with value := clamp damped_value })
              (pymax max_delta (pyabs (damped_value - old_value)))

/-- `_forward_pass`. -/
def forward_pass (e : NeuroEngine) : Except Err (States × ℚ) :=
  forward_vars e (e.vars.map (fun p => p.1)) e.states 0

/-- The targets of a constraint: `[target] if isinstance(target, str) else target`,
with `get("target", "")` defaulting to the empty string. -/
def constraintTargets (c : Constraint) : List Name :=
  match c.target with
  | none => [[]]
  | some (.single v) => [v]
  | some (.multi vs) => vs

/-- The target loop of `_apply_attack`; the source value is re-read from the
(mutated) states, matching Python's aliased `source_state` object. -/
def apply_attack_loop (source : Name) (weight : ℚ) :
    List Name → States → ℚ → States × ℚ
  | [], states, max_delta => (states, max_delta)
  | t :: rest, states, max_delta =>
    match alistGet states t with
    | none => apply_attack_loop source weight rest states max_delta
    | some ts =>
      if ts.locked then apply_attack_loop source weight rest states max_delta
      else
        let source_value := ((alistGet states source).map (fun s => s.value)).getD 0
        let old_value := ts.value
        let new_value := inhibit old_value source_value weight
        apply_attack_loop source weight rest
          (alistSet states t { ts with value := new_value })
          (pymax max_delta (pyabs (new_value - old_value)))

/-- `_apply_attack`. -/
def apply_attack (states : States) (c : Constraint) : States × ℚ :=
  let source := c.source.getD []
  match alistGet states source with
  | none => (states, 0)
  | some _ => apply_attack_loop source (c.weight.getD 1) (constraintTargets c) states 0

/-- The target loop of `_apply_support` (symmetric to attack). -/
def apply_support_loop (source : Name) (weight : ℚ) :
    List Name → States → ℚ → States × ℚ
  | [], states, max_delta => (states, max_delta)
  | t :: rest, states, max_delta =>
    match alistGet states t with
    | none => apply_support_loop source weight rest states max_delta
    | some ts =>
      if ts.locked then apply_support_loop source weight rest states max_delta
      else
        let source_value := ((alistGet states source).map (fun s => s.value)).getD 0
        let old_value := ts.value
        let new_value := support old_value source_value weight
        apply_support_loop source weight rest
          (alistSet states t { ts with value := new_value })
          (pymax max_delta (pyabs (new_value - old_value)))

/-- `_apply_support`. -/
def apply_support (states : States) (c : Constraint) : States × ℚ :=
  let source := c.source.getD []
  match alistGet states source with
  | none => (states, 0)
  | some _ => apply_support_loop source (c.weight.getD 1) (constraintTargets c) states 0

/-- The constraint loop of `_apply_constraints` (insertion order;
only ATTACK and SUPPORT are handled, MUTEX is reserved). -/
def apply_constraints_loop : List (Name × Constraint) → States → ℚ → States × ℚ
  | [], states, max_delta => (states, max_delta)
  | (_, c) :: rest, states, max_delta =>
    let c_type := c.type.getD []
    if c_type = tATTACK then
      let r := apply_attack states c
      apply_constraints_loop rest r.1 (pymax max_delta r.2)
    else if c_type = tSUPPORT then
      let r := apply_support states c
      apply_constraints_loop rest r.1 (pymax max_delta r.2)
    else apply_constraints_loop rest states max_delta

/-- `_apply_constraints`. -/
def apply_constraints (e : NeuroEngine) : States × ℚ :=
  apply_constraints_loop e.constraints e.states 0

/-- `_reset_to_priors`: `value := prior` (not clamped), `locked := declared`. -/
def reset_to_priors (vars : List (Name × Variable)) (states : States) : States :=
  vars.foldl (fun st p =>
    match alistGet st p.1 with
    | some _ => alistSet st p.1 (mkVarState p.2)
    | none => st) states

/-- Evidence locking in `run`: declared evidence vars get
`value := clamp(v)` and `locked := True`; unknown names are dropped. -/
def apply_evidence (evidence : List (Name × ℚ)) (states : States) : States :=
  evidence.foldl (fun st p =>
    match alistGet st p.1 with
    | some _ => alistSet st p.1 { value := clamp p.2, locked := true }
    | none => st) states

/-- `max_iter = iterations or self.config.max_iterations` (Python `or`:
`None` and `0` fall back to the configured maximum). -/
def effective_iterations (config : EngineConfig) (iterations : Option Nat) : Nat :=
  match iterations with
  | some n => if n = 0 then config.max_iterations else n
  | none => config.max_iterations

/-- The inference loop of `run`: up to the given number of iterations, each one
a forward pass then a constraint pass, stopping early when the maximum delta
drops below `convergence_threshold`. Also returns the number of iterations
actually performed. -/
def run_loop : NeuroEngine → Nat → Except Err (NeuroEngine × Nat)
  | e, 0 => .ok (e, 0)
  | e, n + 1 =>
    match forward_pass e with
    | .error m => .error m
    | .ok (st1, rule_delta) =>
      let e1 := { e with states := st1 }
      let r2 := apply_constraints e1
      let e2 := { e1 with states := r2.1 }
      if pymax rule_delta r2.2 < e2.config.convergence_threshold then .ok (e2, 1)
      else
        match run_loop e2 n with
        | .error m => .error m
        | .ok (ef, k) => .ok (ef, k + 1)

/-- `_get_all_values`. -/
def get_all_values (e : NeuroEngine) : List (Name × ℚ) :=
  e.states.map (fun p => (p.1, p.2.value))

/-- `run` up to the final engine state: reset to priors, lock evidence,
iterate. -/
def run_engine (e : NeuroEngine) (evidence : List (Name × ℚ)) (iterations : Option Nat) :
    Except Err (NeuroEngine × Nat) :=
  let max_iter := effective_iterations e.config iterations
  let e1 := { e with states := reset_to_priors e.vars e.states }
  let e2 := { e1 with states := apply_evidence evidence e1.states }
  run_loop e2 max_iter

/-- `NeuroEngine.run(evidence, iterations)`. -/
def NeuroEngine.run (e : NeuroEngine) (evidence : List (Name × ℚ))
    (iterations : Option Nat) : Except Err (List (Name × ℚ)) :=
  (run_engine e evidence iterations).map (fun p => get_all_values p.1)

/-- The number of inference iterations `run` performs. -/
def run_count (e : NeuroEngine) (evidence : List (Name × ℚ)) (iterations : Option Nat) :
    Except Err Nat :=
  (run_engine e evidence iterations).map (fun p => p.2)

/-! ## Training (`engine.py`, `train` / `_update_weights`) -/

/-- A training example. -/
structure TrainingData where
  inputs : List (Name × ℚ)
  targets : List (Name × ℚ)

/-- The weight update applied to one output rule in `_update_weights`:
skipped when `learnable is False`, otherwise
`weight := clamp(weight + error * learning_rate * input_strength)` where
`input_strength` is the mean of the rule's input values, taken from the
training inputs and falling back to the current state (`0.5` if absent). -/
def update_rule_weight (config : EngineConfig) (states : States)
    (error : ℚ) (inputs : List (Name × ℚ)) (rules : List (Name × Rule))
    (rid : Name) : List (Name × Rule) :=
  match alistGet rules rid with
  | none => rules
  | some rule =>
    if rule.learnable = some false then rules
    else
      let rule_inputs := rule.inputs
      let strength_sum := rule_inputs.foldl (fun acc input_name =>
        acc + ((alistGet inputs input_name).getD
          (((alistGet states input_name).getD {}).value))) 0
      let input_strength := strength_sum /
        (if rule_inputs.length = 0 then 1 else (rule_inputs.length : ℚ))
      let delta := error * config.learning_rate * input_strength
      alistSet rules rid { rule with weight := some (clamp (rule.weight.getD 1 + delta)) }

/-- `_update_weights(target_var, error, inputs)`. -/
def update_weights (e : NeuroEngine) (target_var : Name) (error : ℚ)
    (inputs : List (Name × ℚ)) : NeuroEngine :=
  let rule_ids := (alistGet e.varToOutputRules target_var).getD []
  { e with rules := rule_ids.foldl (update_rule_weight e.config e.states error inputs) e.rules }

/-- The per-target inner loop of one training example: accumulate squared
error and update weights for each `(target_var, target_value)`. -/
def train_targets (inputs : List (Name × ℚ)) (output : List (Name × ℚ)) :
    List (Name × ℚ) → NeuroEngine → ℚ → NeuroEngine × ℚ
  | [], e, loss => (e, loss)
  | (target_var, target_value) :: rest, e, loss =>
    let actual_value := (alistGet output target_var).getD (1/2)
    let error := target_value - actual_value
    train_targets inputs output rest (update_weights e target_var error inputs)
      (loss + error ^ 2)

/-- One epoch of `train`: run inference on each example's inputs, then
update weights toward each target. -/
def train_epoch : List TrainingData → NeuroEngine → ℚ → Except Err (NeuroEngine × ℚ)
  | [], e, loss => .ok (e, loss)
  | ex :: rest, e, loss =>
    match run_engine e ex.inputs none with
    | .error m => .error m
    | .ok (e1, _) =>
      let output := get_all_values e1
      let r := train_targets ex.inputs output ex.targets e1 loss
      train_epoch rest r.1 r.2

/-- The epoch loop of `train`: divides the epoch loss by the number of
examples (`1` when empty) and stops early when it drops below `0.001`. -/
def train_loop (data : List TrainingData) : NeuroEngine → Nat → ℚ → Except Err (NeuroEngine × ℚ)
  | e, 0, final_loss => .ok (e, final_loss)
  | e, n + 1, _ =>
    match train_epoch data e 0 with
    | .error m => .error m
    | .ok (e1, raw_loss) =>
      let epoch_loss := raw_loss / (if data.length = 0 then 1 else (data.length : ℚ))
      if epoch_loss < 1/1000 then .ok (e1, epoch_loss)
      else train_loop data e1 n epoch_loss

/-- `NeuroEngine.train(data, epochs)`: returns the final engine and loss. -/
def NeuroEngine.train (e : NeuroEngine) (data : List TrainingData) (epochs : Nat) :
    Except Err (NeuroEngine × ℚ) :=
  train_loop data e epochs 0

/-! ## Graph bridge (`neuro_service.py`, `models.py`) -/

/-- A KSG node: the fields `NeuroService` reads. -/
structure Node where
  id : Name
  prior : ℚ := 1/2
  is_locked : Bool := false
deriving DecidableEq

/-- `LogicMeta` with its Python defaults. -/
structure LogicMeta where
  type : Name := "IMPLIES".toList
  weight : ℚ := 1
  op : Name := "IDENTITY".toList
  learnable : Bool := true
deriving DecidableEq

/-- A KSG association (edge): the fields `NeuroService` reads. -/
structure Association where
  id : Name
  source_id : Name
  target_id : Name
  logic_meta : Option LogicMeta := none
deriving DecidableEq

/-- `ContextGraph`. -/
structure ContextGraph where
  nodes : List (Name × Node)
  associations : List (Name × Association)
  center_node_id : Name

def tIMPLIES : Name := "IMPLIES".toList
def tATTACKS : Name := "ATTACKS".toList
def tSUPPORTS : Name := "SUPPORTS".toList
def tDEPENDS : Name := "DEPENDS".toList

/-- The characters of the Python literal `"node_"`. -/
def nodeTag : Name := ['n', 'o', 'd', 'e', '_']

/-- `_node_to_var_name(node) = f"node_{node.id}"`. -/
def node_to_var_name (node : Node) : Name := nodeTag ++ node.id

/-- `_var_name_to_node_id(var_name)`: strips a leading `"node_"`
(`var_name[5:]` when `var_name.startswith("node_")`). -/
def var_name_to_node_id (var_name : Name) : Name :=
  if var_name.take 5 = nodeTag then var_name.drop 5 else var_name

/-- Decimal digits of a counter, for the f-string rule/constraint ids. -/
def natName (n : Nat) : Name := (Nat.repr n).toList

/-- The variable map built by `to_neuro_json`: each node becomes a
`bool` variable with the node's prior and lock flag. -/
def to_neuro_json_vars (nodes : List (Name × Node)) : List (Name × Variable) :=
  nodes.foldl (fun vs p =>
    alistSet vs (node_to_var_name p.2)
      { type := some ("bool".toList), prior := some p.2.prior, locked := some p.2.is_locked }) []

/-- The rule/constraint translation loop of `to_neuro_json`, with the two
counters; edges without logic metadata or with a missing endpoint are skipped. -/
def to_neuro_json_edges (nodes : List (Name × Node)) :
    List (Name × Association) → Nat → Nat → List Rule → List Constraint →
      List Rule × List Constraint
  | [], _, _, rules, constraints => (rules, constraints)
  | (_, assoc) :: rest, rule_counter, constraint_counter, rules, constraints =>
    match assoc.logic_meta with
    | none => to_neuro_json_edges nodes rest rule_counter constraint_counter rules constraints
    | some logic =>
      match alistGet nodes assoc.source_id, alistGet nodes assoc.target_id with
      | some source_node, some target_node =>
        let source_var := node_to_var_name source_node
        let target_var := node_to_var_name target_node
        if logic.type = tIMPLIES then
          to_neuro_json_edges nodes rest (rule_counter + 1) constraint_counter
            (rules ++ [{ id := "rule_".toList ++ natName (rule_counter + 1) ++ ['_'] ++ assoc.id.take 8,
                         type := some tIMPLICATION, inputs := [source_var],
                         output := some target_var, op := some logic.op,
                         weight := some logic.weight, learnable := some logic.learnable }])
            constraints
        else if logic.type = tATTACKS then
          to_neuro_json_edges nodes rest rule_counter (constraint_counter + 1) rules
            (constraints ++ [{ id := "attack_".toList ++ natName (constraint_counter + 1) ++ ['_'] ++ assoc.id.take 8,
                               type := some tATTACK, source := some source_var,
                               target := some (.single target_var), weight := some logic.weight }])
        else if logic.type = tSUPPORTS then
          to_neuro_json_edges nodes rest rule_counter (constraint_counter + 1) rules
            (constraints ++ [{ id := "support_".toList ++ natName (constraint_counter + 1) ++ ['_'] ++ assoc.id.take 8,
                               type := some tSUPPORT, source := some source_var,
                               target := some (.single target_var), weight := some logic.weight }])
        else if logic.type = tDEPENDS then
          to_neuro_json_edges nodes rest (rule_counter + 1) constraint_counter
            (rules ++ [{ id := "depends_".toList ++ natName (rule_counter + 1) ++ ['_'] ++ assoc.id.take 8,
                         type := some tIMPLICATION, inputs := [source_var],
                         output := some target_var, op := some logic.op,
                         weight := some (logic.weight * (1/2)), learnable := some logic.learnable }])
            constraints
        else to_neuro_json_edges nodes rest rule_counter constraint_counter rules constraints
      | _, _ => to_neuro_json_edges nodes rest rule_counter constraint_counter rules constraints

/-- `to_neuro_json(context)`. -/
def to_neuro_json (context : ContextGraph) : NeuroJSON :=
  let vs := to_neuro_json_vars context.nodes
  let rc := to_neuro_json_edges context.nodes context.associations 0 0 [] []
  { vars := vs, rules := rc.1, constraints := rc.2 }

/-- The `EngineConfig` built in `run_inference` from the service defaults
(`max_iterations = iterations or 50`, threshold `0.001`, learning rate `0.1`,
damping `0.5`). -/
def service_config (iterations : Option Nat) : EngineConfig :=
  { max_iterations := match iterations with | some n => if n = 0 then 50 else n | none => 50
    convergence_threshold := 1/1000
    learning_rate := 1/10
    damping_factor := 1/2 }

/-- Evidence translation in `run_inference`: node-id keys become
`node_<id>` variable names; names not declared in the schema are dropped. -/
def map_evidence (schema_vars : List (Name × Variable)) (evidence : List (Name × ℚ)) :
    List (Name × ℚ) :=
  evidence.foldl (fun acc p =>
    let var_name := nodeTag ++ p.1
    match alistGet schema_vars var_name with
    | some _ => alistSet acc var_name p.2
    | none => acc) []

/-- Result translation in `run_inference`: variable names back to node ids. -/
def back_map_results (result : List (Name × ℚ)) : List (Name × ℚ) :=
  result.foldl (fun acc p => alistSet acc (var_name_to_node_id p.1) p.2) []

/-- `NeuroService.run_inference(context, evidence, iterations)`. -/
def run_inference (context : ContextGraph) (evidence : List (Name × ℚ))
    (iterations : Option Nat) : Except Err (List (Name × ℚ)) :=
  let schema := to_neuro_json context
  let engine := NeuroEngine.load schema (service_config iterations)
  let var_evidence := map_evidence schema.vars evidence
  match engine.run var_evidence iterations with
  | .error m => .error m
  | .ok result => .ok (back_map_results result)

/-- `NeuroService.query_node(context, node_id, evidence)`:
`run_inference(context, evidence).get(node_id, 0.5)`. -/
def query_node (context : ContextGraph) (node_id : Name) (evidence : List (Name × ℚ)) :
    Except Err ℚ :=
  match run_inference context evidence none with
  | .error m => .error m
  | .ok results => .ok ((alistGet results node_id).getD (1/2))

/-- Decidable equality for `Except`, used to evaluate concrete runs. -/
instance {ε α : Type} [DecidableEq ε] [DecidableEq α] : DecidableEq (Except ε α) := fun a b =>
  match a, b with
  | .ok x, .ok y =>
    if h : x = y then isTrue (by rw [h]) else isFalse (fun c => h (Except.ok.inj c))
  | .error x, .error y =>
    if h : x = y then isTrue (by rw [h]) else isFalse (fun c => h (Except.error.inj c))
  | .ok _, .error _ => isFalse (fun c => Except.noConfusion c)
  | .error _, .ok _ => isFalse (fun c => Except.noConfusion c)

/-! ## Concrete fixtures used by counterexamples and witnesses -/

/-- A schema with a single variable whose declared prior `2` lies outside
`[0,1]`, and no rules or constraints. -/
def schemaBigPrior : NeuroJSON := { vars := [(['a'], { prior := some 2 })] }

/-- A two-variable chain `a → b` (weight 1, op IDENTITY), priors 0. -/
def schemaChain : NeuroJSON :=
  { vars := [(['a'], { prior := some 0 }), (['b'], { prior := some 0 })]
    rules := [{ id := ['r'], type := some tIMPLICATION, inputs := [['a']],
                output := some ['b'], op := some tIDENTITY, weight := some 1 }] }

/-- A schema with an IMPLICATION rule whose `op` is the unknown string `"FOO"`. -/
def schemaBadOp : NeuroJSON :=
  { vars := [(['a'], { prior := some (3/10) })]
    rules := [{ id := ['r'], inputs := [['a']], output := some ['a'],
                op := some ("FOO".toList) }] }

/-- A schema with a single self-rule of weight `0` outputting to `v`
(prior `1/5`). -/
def schemaZeroWeight : NeuroJSON :=
  { vars := [(['v'], { prior := some (1/5) })]
    rules := [{ id := ['r'], inputs := [['v']], output := some ['v'],
                weight := some 0 }] }

/-- An EQUIVALENCE rule with no inputs and weight 1. -/
def ruleEquivNoInputs : Rule :=
  { id := ['q'], type := some tEQUIVALENCE, inputs := [], weight := some 1 }

/-- A two-node context graph (ids `a`, `b`, priors 3/10 and 7/10, no edges),
centred on `a`. -/
def ctxTwoNodes : ContextGraph :=
  { nodes := [(['a'], { id := ['a'], prior := 3/10 }), (['b'], { id := ['b'], prior := 7/10 })]
    associations := []
    center_node_id := ['a'] }

/-- The operator names accepted by `apply_operation`. -/
def validOps : List Name := [tIDENTITY, tAND, tOR, tNOT, tWEIGHTED]

/-- A rule that cannot make `_evaluate_rule` raise: whenever its type
(default `IMPLICATION`) is `IMPLICATION`, its (upper-cased) op is a
recognised operator. -/
abbrev GoodRule (r : Rule) : Prop :=
  r.type.getD tIMPLICATION = tIMPLICATION →
    (r.op.getD tIDENTITY).map Char.toUpper ∈ validOps

/-- A schema with a single variable declared locked with prior 3/10. -/
def schemaLockedWit : NeuroJSON :=
  { vars := [(['a'], { prior := some (3/10), locked := some true })] }

/-- An example node for the bridge name-map witness. -/
def exNode : Node := { id := ['x'], prior := 1/2, is_locked := false }

/-- The EQUIVALENCE branch of `_evaluate_rule` as a function of the resolved
inputs: `equivalent(i0,i1)·w` with ≥2 inputs, `i0·w` with one, `0.5·w` with
none (clamped). -/
def equivResult (ivs : List ℚ) (w : ℚ) : ℚ :=
  match ivs with
  | a :: b :: _ => clamp (equivalent a b * w)
  | [a] => clamp (a * w)
  | [] => clamp ((1/2) * w)

/-- The engine loaded from `schemaZeroWeight` with the default config. -/
def eZW : NeuroEngine := NeuroEngine.load schemaZeroWeight create_default_config

/-- The initial state of `v` in `eZW`. -/
def stZW : VariableState := { value := 1/5, locked := false }

/-- C10 fixture: a one-variable schema, declaring only `q`. -/
def wVarsC10 : List (Name × Variable) := [(['q'], {})]

/-- C10 fixture: a rule whose output `z` is not a declared variable. -/
def wRuleC10 : Rule := { id := ['x'], output := some ['z'], weight := some (9/10) }

/-- C10 fixture: the engine loaded from the schema containing the inert rule. -/
def eC10 : NeuroEngine := NeuroEngine.load ⟨wVarsC10, [wRuleC10], []⟩ create_default_config


/-! ## Basic lemmas: clamp and association lists -/

theorem pymax_eq_max (a b : ℚ) : pymax a b = max a b := by
  unfold pymax
  by_cases h : a ≤ b
  · rw [if_pos h, max_eq_right h]
  · rw [if_neg h, max_eq_left (le_of_not_le h)]

theorem pymin_eq_min (a b : ℚ) : pymin a b = min a b := by
  unfold pymin
  by_cases h : b ≤ a
  · rw [if_pos h, min_eq_right h]
  · rw [if_neg h, min_eq_left (le_of_not_le h)]

theorem pyabs_eq_abs (x : ℚ) : pyabs x = |x| := by
  unfold pyabs
  by_cases h : x < 0
  · simp [h, abs_of_neg h]
  · simp [h, abs_of_nonneg (not_lt.mp h)]

theorem clamp_nonneg (x : ℚ) : 0 ≤ clamp x := by
  simp only [clamp, pymax_eq_max]; exact le_max_left 0 _

theorem clamp_le_one (x : ℚ) : clamp x ≤ 1 := by
  simp only [clamp, pymax_eq_max, pymin_eq_min]
  exact max_le (by norm_num) (min_le_left 1 x)

theorem clamp_mem (x : ℚ) : 0 ≤ clamp x ∧ clamp x ≤ 1 :=
  ⟨clamp_nonneg x, clamp_le_one x⟩

theorem clamp_of_mem {x : ℚ} (h0 : 0 ≤ x) (h1 : x ≤ 1) : clamp x = x := by
  simp only [clamp, pymax_eq_max, pymin_eq_min]
  rw [min_eq_right h1, max_eq_right h0]

theorem clamp_of_one_le {x : ℚ} (h : 1 ≤ x) : clamp x = 1 := by
  simp only [clamp, pymax_eq_max, pymin_eq_min]
  rw [min_eq_left h]; norm_num

theorem clamp_of_le_zero {x : ℚ} (h : x ≤ 0) : clamp x = 0 := by
  simp only [clamp, pymax_eq_max, pymin_eq_min]
  rw [max_eq_left]
  exact min_le_of_right_le h

theorem alistGet_alistSet_self {β : Type} (l : List (Name × β)) (k : Name) (v : β) :
    alistGet (alistSet l k v) k = some v := by
  induction l with
  | nil => simp [alistGet, alistSet]
  | cons p rest ih =>
    by_cases h : p.1 = k
    · simp [alistSet, alistGet, h]
    · simp [alistSet, alistGet, h, ih]

theorem alistGet_alistSet_ne {β : Type} (l : List (Name × β)) (k k1 : Name) (v : β)
    (h : k1 ≠ k) : alistGet (alistSet l k v) k1 = alistGet l k1 := by
  have h1 : k ≠ k1 := Ne.symm h
  induction l with
  | nil => simp [alistGet, alistSet, h1]
  | cons p rest ih =>
    by_cases h2 : p.1 = k
    · subst h2
      simp [alistSet, alistGet, h1]
    · by_cases h3 : p.1 = k1 <;> simp [alistSet, alistGet, h, h1, h2, h3, ih]

theorem alistSet_forall {β : Type} (l : List (Name × β)) (k : Name) (v : β)
    (P : β → Prop) (hl : ∀ p ∈ l, P p.2) (hv : P v) :
    ∀ p ∈ alistSet l k v, P p.2 := by
  induction l with
  | nil => simpa [alistSet]
  | cons q rest ih =>
    by_cases h : q.1 = k
    · simp only [alistSet, h, if_true]
      intro p hp
      rcases List.mem_cons.mp hp with h1 | h1
      · simpa [h1]
      · exact hl p (List.mem_cons_of_mem q h1)
    · simp only [alistSet, h, if_false]
      intro p hp
      rcases List.mem_cons.mp hp with h1 | h1
      · exact h1 ▸ hl q (List.mem_cons_self q rest)
      · exact ih (fun p hp => hl p (List.mem_cons_of_mem q hp)) p h1

theorem alistSet_keys_of_mem {β : Type} (l : List (Name × β)) (k : Name) (v : β)
    (h : k ∈ l.map (fun p => p.1)) :
    (alistSet l k v).map (fun p => p.1) = l.map (fun p => p.1) := by
  induction l with
  | nil => simp at h
  | cons q rest ih =>
    by_cases h1 : q.1 = k
    · simp [alistSet, h1]
    · have h2 : k ∈ rest.map (fun p => p.1) := by
        rcases List.mem_map.mp h with ⟨p, hp, hpk⟩
        rcases List.mem_cons.mp hp with h3 | h3
        · exact absurd (h3 ▸ hpk) h1
        · exact List.mem_map.mpr ⟨p, h3, hpk⟩
      simp [alistSet, h1, ih h2]

theorem alistSet_of_not_mem {β : Type} (l : List (Name × β)) (k : Name) (v : β)
    (h : k ∉ l.map (fun p => p.1)) : alistSet l k v = l ++ [(k, v)] := by
  induction l with
  | nil => simp [alistSet]
  | cons q rest ih =>
    simp only [List.map_cons, List.mem_cons] at h
    push_neg at h
    have h1 : q.1 ≠ k := Ne.symm h.1
    simp [alistSet, h1, ih h.2]

theorem alistGet_eq_none {β : Type} (l : List (Name × β)) (k : Name)
    (h : k ∉ l.map (fun p => p.1)) : alistGet l k = none := by
  induction l with
  | nil => rfl
  | cons q rest ih =>
    simp only [List.map_cons, List.mem_cons] at h
    push_neg at h
    have h1 : q.1 ≠ k := Ne.symm h.1
    simp [alistGet, h1, ih h.2]

theorem alistGet_isSome_iff {β : Type} (l : List (Name × β)) (k : Name) :
    (alistGet l k).isSome = true ↔ k ∈ l.map (fun p => p.1) := by
  induction l with
  | nil => simp [alistGet]
  | cons q rest ih =>
    by_cases h : q.1 = k
    · constructor
      · intro _
        exact List.mem_map.mpr ⟨q, List.mem_cons_self q rest, h⟩
      · intro _
        have h2 : alistGet (q :: rest) k = some q.2 := by simp [alistGet, h]
        rw [h2]
        rfl
    · simp only [alistGet, h, if_false, List.map_cons, List.mem_cons, ih]
      constructor
      · exact fun h1 => Or.inr h1
      · intro h1
        rcases h1 with h1 | h1
        · exact absurd h1.symm h
        · exact h1

theorem alistGet_mem {β : Type} (l : List (Name × β)) (k : Name) (v : β)
    (h : alistGet l k = some v) : (k, v) ∈ l := by
  induction l with
  | nil => simp [alistGet] at h
  | cons q rest ih =>
    by_cases h1 : q.1 = k
    · simp only [alistGet, h1, if_true, Option.some.injEq] at h
      have hq : q = (k, v) := by
        rcases q with ⟨qk, qv⟩
        simp only at h1 h
        rw [h1, h]
      exact hq ▸ List.mem_cons_self q rest
    · simp only [alistGet, h1, if_false] at h
      exact List.mem_cons_of_mem q (ih h)

theorem alistSet_keys_nodup {β : Type} (l : List (Name × β)) (k : Name) (v : β)
    (h : (l.map (fun p => p.1)).Nodup) : ((alistSet l k v).map (fun p => p.1)).Nodup := by
  by_cases hm : k ∈ l.map (fun p => p.1)
  · rw [alistSet_keys_of_mem l k v hm]; exact h
  · rw [alistSet_of_not_mem l k v hm]
    simp only [List.map_append, List.map_cons, List.map_nil]
    refine List.Nodup.append h (List.nodup_singleton k) ?_
    intro x hx hxk
    rw [List.mem_singleton] at hxk
    subst hxk
    exact hm hx

theorem alistSet_keys_sub {β : Type} (l : List (Name × β)) (k : Name) (v : β) :
    ∀ x ∈ (alistSet l k v).map (fun p => p.1), x ∈ l.map (fun p => p.1) ∨ x = k := by
  by_cases hm : k ∈ l.map (fun p => p.1)
  · rw [alistSet_keys_of_mem l k v hm]; exact fun x hx => Or.inl hx
  · rw [alistSet_of_not_mem l k v hm]
    intro x hx
    simp only [List.map_append, List.map_cons, List.map_nil, List.mem_append,
      List.mem_singleton] at hx
    exact hx

/-! ## Load decomposition -/

theorem foldl_loadVarStep_config : ∀ (l : List (Name × Variable)) (e : NeuroEngine),
    (List.foldl loadVarStep e l).config = e.config := by
  intro l
  induction l with
  | nil => intro e; rfl
  | cons p rest ih => intro e; rw [List.foldl_cons, ih]; rfl

theorem foldl_loadVarStep_rules : ∀ (l : List (Name × Variable)) (e : NeuroEngine),
    (List.foldl loadVarStep e l).rules = e.rules := by
  intro l
  induction l with
  | nil => intro e; rfl
  | cons p rest ih => intro e; rw [List.foldl_cons, ih]; rfl

theorem foldl_loadVarStep_constraints : ∀ (l : List (Name × Variable)) (e : NeuroEngine),
    (List.foldl loadVarStep e l).constraints = e.constraints := by
  intro l
  induction l with
  | nil => intro e; rfl
  | cons p rest ih => intro e; rw [List.foldl_cons, ih]; rfl

theorem foldl_loadVarStep_states : ∀ (l : List (Name × Variable)) (e : NeuroEngine),
    (List.foldl loadVarStep e l).states
      = List.foldl (fun st p => alistSet st p.1 (mkVarState p.2)) e.states l := by
  intro l
  induction l with
  | nil => intro e; rfl
  | cons p rest ih => intro e; rw [List.foldl_cons, ih]; rfl

theorem foldl_loadVarStep_vars : ∀ (l : List (Name × Variable)) (e : NeuroEngine),
    (List.foldl loadVarStep e l).vars
      = List.foldl (fun vs p => alistSet vs p.1 p.2) e.vars l := by
  intro l
  induction l with
  | nil => intro e; rfl
  | cons p rest ih => intro e; rw [List.foldl_cons, ih]; rfl

theorem foldl_loadVarStep_out : ∀ (l : List (Name × Variable)) (e : NeuroEngine),
    (List.foldl loadVarStep e l).varToOutputRules
      = List.foldl (fun idx p => alistSet idx p.1 []) e.varToOutputRules l := by
  intro l
  induction l with
  | nil => intro e; rfl
  | cons p rest ih => intro e; rw [List.foldl_cons, ih]; rfl

theorem foldl_loadRuleStep_config : ∀ (l : List Rule) (e : NeuroEngine),
    (List.foldl loadRuleStep e l).config = e.config := by
  intro l
  induction l with
  | nil => intro e; rfl
  | cons p rest ih => intro e; rw [List.foldl_cons, ih]; rfl

theorem foldl_loadRuleStep_states : ∀ (l : List Rule) (e : NeuroEngine),
    (List.foldl loadRuleStep e l).states = e.states := by
  intro l
  induction l with
  | nil => intro e; rfl
  | cons p rest ih => intro e; rw [List.foldl_cons, ih]; rfl

theorem foldl_loadRuleStep_vars : ∀ (l : List Rule) (e : NeuroEngine),
    (List.foldl loadRuleStep e l).vars = e.vars := by
  intro l
  induction l with
  | nil => intro e; rfl
  | cons p rest ih => intro e; rw [List.foldl_cons, ih]; rfl

theorem foldl_loadRuleStep_constraints : ∀ (l : List Rule) (e : NeuroEngine),
    (List.foldl loadRuleStep e l).constraints = e.constraints := by
  intro l
  induction l with
  | nil => intro e; rfl
  | cons p rest ih => intro e; rw [List.foldl_cons, ih]; rfl

theorem foldl_loadRuleStep_out : ∀ (l : List Rule) (e : NeuroEngine),
    (List.foldl loadRuleStep e l).varToOutputRules
      = List.foldl outIndexStep e.varToOutputRules l := by
  intro l
  induction l with
  | nil => intro e; rfl
  | cons p rest ih => intro e; rw [List.foldl_cons, ih]; rfl

theorem foldl_loadRuleStep_rules : ∀ (l : List Rule) (e : NeuroEngine),
    (List.foldl loadRuleStep e l).rules
      = List.foldl (fun rs r => alistSet rs r.id r) e.rules l := by
  intro l
  induction l with
  | nil => intro e; rfl
  | cons p rest ih => intro e; rw [List.foldl_cons, ih]; rfl

theorem load_config (schema : NeuroJSON) (cfg : EngineConfig) :
    (NeuroEngine.load schema cfg).config = cfg := by
  unfold NeuroEngine.load
  rw [foldl_loadRuleStep_config, foldl_loadVarStep_config]

theorem load_states (schema : NeuroJSON) (cfg : EngineConfig) :
    (NeuroEngine.load schema cfg).states
      = List.foldl (fun st p => alistSet st p.1 (mkVarState p.2)) [] schema.vars := by
  unfold NeuroEngine.load
  rw [foldl_loadRuleStep_states, foldl_loadVarStep_states]

theorem load_vars (schema : NeuroJSON) (cfg : EngineConfig) :
    (NeuroEngine.load schema cfg).vars
      = List.foldl (fun vs p => alistSet vs p.1 p.2) [] schema.vars := by
  unfold NeuroEngine.load
  rw [foldl_loadRuleStep_vars, foldl_loadVarStep_vars]

theorem load_out (schema : NeuroJSON) (cfg : EngineConfig) :
    (NeuroEngine.load schema cfg).varToOutputRules
      = List.foldl outIndexStep
          (List.foldl (fun idx p => alistSet idx p.1 []) [] schema.vars) schema.rules := by
  unfold NeuroEngine.load
  rw [foldl_loadRuleStep_out, foldl_loadVarStep_out]

theorem load_rules (schema : NeuroJSON) (cfg : EngineConfig) :
    (NeuroEngine.load schema cfg).rules
      = List.foldl (fun rs r => alistSet rs r.id r) [] schema.rules := by
  unfold NeuroEngine.load
  rw [foldl_loadRuleStep_rules, foldl_loadVarStep_rules]

theorem load_constraints (schema : NeuroJSON) (cfg : EngineConfig) :
    (NeuroEngine.load schema cfg).constraints
      = List.foldl (fun cs c => alistSet cs c.id c) [] schema.constraints := by
  unfold NeuroEngine.load
  simp only []
  rw [foldl_loadRuleStep_constraints, foldl_loadVarStep_constraints]

/-! ## Boundedness invariants -/

theorem forward_vars_bounded (e : NeuroEngine) :
    ∀ (names : List Name) (st : States) (d : ℚ) (st2 : States) (d2 : ℚ),
      forward_vars e names st d = .ok (st2, d2) →
      (∀ p ∈ st, 0 ≤ p.2.value ∧ p.2.value ≤ 1) →
      ∀ p ∈ st2, 0 ≤ p.2.value ∧ p.2.value ≤ 1 := by
  intro names
  induction names with
  | nil =>
    intro st d st2 d2 h hst
    simp only [forward_vars, Except.ok.injEq, Prod.mk.injEq] at h
    obtain ⟨h1, _⟩ := h
    subst h1
    exact hst
  | cons vn rest ih =>
    intro st d st2 d2 h hst
    simp only [forward_vars] at h
    split at h
    · exact ih _ _ _ _ h hst
    · split at h
      · exact ih _ _ _ _ h hst
      · split at h
        · exact absurd h (by simp)
        · split at h
          · exact ih _ _ _ _ h hst
          · exact ih _ _ _ _ h
              (alistSet_forall _ _ _ (fun s : VariableState => 0 ≤ s.value ∧ s.value ≤ 1) hst ⟨clamp_nonneg _, clamp_le_one _⟩)

theorem apply_attack_loop_bounded (source : Name) (w : ℚ) :
    ∀ (ts : List Name) (st : States) (d : ℚ),
      (∀ p ∈ st, 0 ≤ p.2.value ∧ p.2.value ≤ 1) →
      ∀ p ∈ (apply_attack_loop source w ts st d).1, 0 ≤ p.2.value ∧ p.2.value ≤ 1 := by
  intro ts
  induction ts with
  | nil => intro st d hst; exact hst
  | cons t rest ih =>
    intro st d hst
    simp only [apply_attack_loop]
    split
    · exact ih _ _ hst
    · split
      · exact ih _ _ hst
      · exact ih _ _ (alistSet_forall _ _ _ (fun s : VariableState => 0 ≤ s.value ∧ s.value ≤ 1) hst ⟨clamp_nonneg _, clamp_le_one _⟩)

theorem apply_support_loop_bounded (source : Name) (w : ℚ) :
    ∀ (ts : List Name) (st : States) (d : ℚ),
      (∀ p ∈ st, 0 ≤ p.2.value ∧ p.2.value ≤ 1) →
      ∀ p ∈ (apply_support_loop source w ts st d).1, 0 ≤ p.2.value ∧ p.2.value ≤ 1 := by
  intro ts
  induction ts with
  | nil => intro st d hst; exact hst
  | cons t rest ih =>
    intro st d hst
    simp only [apply_support_loop]
    split
    · exact ih _ _ hst
    · split
      · exact ih _ _ hst
      · exact ih _ _ (alistSet_forall _ _ _ (fun s : VariableState => 0 ≤ s.value ∧ s.value ≤ 1) hst ⟨clamp_nonneg _, clamp_le_one _⟩)

theorem apply_attack_bounded (st : States) (c : Constraint)
    (hst : ∀ p ∈ st, 0 ≤ p.2.value ∧ p.2.value ≤ 1) :
    ∀ p ∈ (apply_attack st c).1, 0 ≤ p.2.value ∧ p.2.value ≤ 1 := by
  simp only [apply_attack]
  split
  · exact hst
  · exact apply_attack_loop_bounded _ _ _ _ _ hst

theorem apply_support_bounded (st : States) (c : Constraint)
    (hst : ∀ p ∈ st, 0 ≤ p.2.value ∧ p.2.value ≤ 1) :
    ∀ p ∈ (apply_support st c).1, 0 ≤ p.2.value ∧ p.2.value ≤ 1 := by
  simp only [apply_support]
  split
  · exact hst
  · exact apply_support_loop_bounded _ _ _ _ _ hst

theorem apply_constraints_loop_bounded :
    ∀ (cs : List (Name × Constraint)) (st : States) (d : ℚ),
      (∀ p ∈ st, 0 ≤ p.2.value ∧ p.2.value ≤ 1) →
      ∀ p ∈ (apply_constraints_loop cs st d).1, 0 ≤ p.2.value ∧ p.2.value ≤ 1 := by
  intro cs
  induction cs with
  | nil => intro st d hst; exact hst
  | cons c rest ih =>
    intro st d hst
    simp only [apply_constraints_loop]
    split
    · exact ih _ _ (apply_attack_bounded _ _ hst)
    · split
      · exact ih _ _ (apply_support_bounded _ _ hst)
      · exact ih _ _ hst

theorem run_loop_bounded :
    ∀ (n : Nat) (e : NeuroEngine) (e2 : NeuroEngine) (k : Nat),
      run_loop e n = .ok (e2, k) →
      (∀ p ∈ e.states, 0 ≤ p.2.value ∧ p.2.value ≤ 1) →
      ∀ p ∈ e2.states, 0 ≤ p.2.value ∧ p.2.value ≤ 1 := by
  intro n
  induction n with
  | zero =>
    intro e e2 k h hst
    simp only [run_loop, Except.ok.injEq, Prod.mk.injEq] at h
    obtain ⟨h1, _⟩ := h
    subst h1
    exact hst
  | succ n ih =>
    intro e e2 k h hst
    simp only [run_loop] at h
    split at h
    · exact absurd h (by simp)
    · next st1 rd heq =>
      have hb1 : ∀ p ∈ st1, 0 ≤ p.2.value ∧ p.2.value ≤ 1 :=
        forward_vars_bounded e _ _ _ _ _ heq hst
      have hb2 : ∀ p ∈ (apply_constraints { e with states := st1 }).1,
          0 ≤ p.2.value ∧ p.2.value ≤ 1 :=
        apply_constraints_loop_bounded _ _ _ hb1
      split at h
      · simp only [Except.ok.injEq, Prod.mk.injEq] at h
        obtain ⟨h1, _⟩ := h
        subst h1
        exact hb2
      · split at h
        · exact absurd h (by simp)
        · next ef k2 heq2 =>
          simp only [Except.ok.injEq, Prod.mk.injEq] at h
          obtain ⟨h1, _⟩ := h
          subst h1
          exact ih _ _ _ heq2 hb2

theorem reset_to_priors_bounded :
    ∀ (vs : List (Name × Variable)) (st : States),
      (∀ p ∈ vs, 0 ≤ p.2.prior.getD (1/2) ∧ p.2.prior.getD (1/2) ≤ 1) →
      (∀ p ∈ st, 0 ≤ p.2.value ∧ p.2.value ≤ 1) →
      ∀ p ∈ reset_to_priors vs st, 0 ≤ p.2.value ∧ p.2.value ≤ 1 := by
  intro vs
  induction vs with
  | nil => intro st _ hst; exact hst
  | cons q rest ih =>
    intro st hv hst
    have hstep : ∀ p ∈ (match alistGet st q.1 with
        | some _ => alistSet st q.1 (mkVarState q.2)
        | none => st), 0 ≤ p.2.value ∧ p.2.value ≤ 1 := by
      split
      · exact alistSet_forall _ _ _ (fun s : VariableState => 0 ≤ s.value ∧ s.value ≤ 1)
          hst (hv q (List.mem_cons_self q rest))
      · exact hst
    exact ih _ (fun p hp => hv p (List.mem_cons_of_mem q hp)) hstep

theorem apply_evidence_bounded :
    ∀ (ev : List (Name × ℚ)) (st : States),
      (∀ p ∈ st, 0 ≤ p.2.value ∧ p.2.value ≤ 1) →
      ∀ p ∈ apply_evidence ev st, 0 ≤ p.2.value ∧ p.2.value ≤ 1 := by
  intro ev
  induction ev with
  | nil => intro st hst; exact hst
  | cons q rest ih =>
    intro st hst
    have hstep : ∀ p ∈ (match alistGet st q.1 with
        | some _ => alistSet st q.1 { value := clamp q.2, locked := true }
        | none => st), 0 ≤ p.2.value ∧ p.2.value ≤ 1 := by
      split
      · exact alistSet_forall _ _ _ (fun s : VariableState => 0 ≤ s.value ∧ s.value ≤ 1)
          hst ⟨clamp_nonneg _, clamp_le_one _⟩
      · exact hst
    exact ih _ hstep

theorem foldl_set_forall {β γ : Type} (f : γ → Name) (g : γ → β) (P : β → Prop) :
    ∀ (l : List γ) (init : List (Name × β)), (∀ p ∈ init, P p.2) → (∀ x ∈ l, P (g x)) →
      ∀ p ∈ List.foldl (fun acc x => alistSet acc (f x) (g x)) init l, P p.2 := by
  intro l
  induction l with
  | nil => intro init hi _; exact hi
  | cons x rest ih =>
    intro init hi hl
    exact ih _ (alistSet_forall _ _ _ P hi (hl x (List.mem_cons_self x rest)))
      (fun y hy => hl y (List.mem_cons_of_mem x hy))

theorem load_vars_forall (schema : NeuroJSON) (cfg : EngineConfig) (P : Variable → Prop)
    (h : ∀ p ∈ schema.vars, P p.2) : ∀ p ∈ (NeuroEngine.load schema cfg).vars, P p.2 := by
  rw [load_vars]
  exact foldl_set_forall (fun p => p.1) (fun p => p.2) P schema.vars [] (by simp) h

theorem load_states_bounded (schema : NeuroJSON) (cfg : EngineConfig)
    (hv : ∀ p ∈ schema.vars, 0 ≤ p.2.prior.getD (1/2) ∧ p.2.prior.getD (1/2) ≤ 1) :
    ∀ p ∈ (NeuroEngine.load schema cfg).states, 0 ≤ p.2.value ∧ p.2.value ≤ 1 := by
  rw [load_states]
  exact foldl_set_forall (fun p => p.1) (fun p : Name × Variable => mkVarState p.2)
    (fun s : VariableState => 0 ≤ s.value ∧ s.value ≤ 1) schema.vars [] (by simp)
    (fun p hp => hv p hp)

theorem run_engine_bounded (e : NeuroEngine) (ev : List (Name × ℚ)) (its : Option Nat)
    (e2 : NeuroEngine) (k : Nat) (h : run_engine e ev its = .ok (e2, k))
    (hv : ∀ p ∈ e.vars, 0 ≤ p.2.prior.getD (1/2) ∧ p.2.prior.getD (1/2) ≤ 1)
    (hst : ∀ p ∈ e.states, 0 ≤ p.2.value ∧ p.2.value ≤ 1) :
    ∀ p ∈ e2.states, 0 ≤ p.2.value ∧ p.2.value ≤ 1 := by
  unfold run_engine at h
  exact run_loop_bounded _ _ _ _ h
    (apply_evidence_bounded _ _ (reset_to_priors_bounded _ _ hv hst))

theorem get_all_values_forall (e : NeuroEngine) (P : ℚ → Prop)
    (h : ∀ p ∈ e.states, P p.2.value) : ∀ p ∈ get_all_values e, P p.2 := by
  intro p hp
  unfold get_all_values at hp
  rcases List.mem_map.mp hp with ⟨q, hq, rfl⟩
  exact h q hq

/-- C1 (counterexample): declared priors are *not* clamped at reset —
for the schema with a single variable `a` of prior `2` and no rules,
`run({})` returns `{a: 2}`, and `2` is outside `[0,1]`. -/
theorem c1_counterexample :
    (NeuroEngine.load schemaBigPrior create_default_config).run [] none
        = .ok [(['a'], 2)]
      ∧ ¬ ((2:ℚ) ≤ 1) :=
  ⟨by with_unfolding_all decide, by norm_num⟩

/-- C1 (amended): provided every declared prior lies in `[0,1]`, every value
in the map returned by `NeuroEngine.run` is in `[0,1]`; every assignment of a
truth value during inference clamps, except the assignment of the raw declared
prior at reset (and at load), which copies the prior unclamped. -/
theorem c1_run_values_bounded (schema : NeuroJSON) (cfg : EngineConfig)
    (evidence : List (Name × ℚ)) (its : Option Nat)
    (hv : ∀ p ∈ schema.vars, 0 ≤ p.2.prior.getD (1/2) ∧ p.2.prior.getD (1/2) ≤ 1) :
    ∀ m, (NeuroEngine.load schema cfg).run evidence its = .ok m →
      ∀ p ∈ m, 0 ≤ p.2 ∧ p.2 ≤ 1 := by
  intro m hm
  unfold NeuroEngine.run at hm
  cases hre : run_engine (NeuroEngine.load schema cfg) evidence its with
  | error msg => rw [hre] at hm; exact absurd hm (by simp [Except.map])
  | ok pair =>
    rw [hre] at hm
    simp only [Except.map, Except.ok.injEq] at hm
    subst hm
    exact get_all_values_forall _ (fun x => 0 ≤ x ∧ x ≤ 1)
      (run_engine_bounded _ _ _ _ _ (by rw [hre])
        (load_vars_forall schema cfg
          (fun var => 0 ≤ var.prior.getD (1/2) ∧ var.prior.getD (1/2) ≤ 1) hv)
        (load_states_bounded schema cfg hv))

/-- C1 witness: the amended theorem applied to the concrete chain schema. -/
theorem c1_witness : 0 ≤ ((1:ℚ)/2) ∧ ((1:ℚ)/2) ≤ 1 :=
  c1_run_values_bounded schemaChain create_default_config [(['a'], 1)] (some 1)
    (by with_unfolding_all decide) [(['a'], 1), (['b'], 1/2)]
    (by with_unfolding_all decide) (['b'], 1/2) (by with_unfolding_all decide)

/-! ## Locked variables are frozen -/

theorem forward_vars_locked (e : NeuroEngine) :
    ∀ (names : List Name) (st : States) (d : ℚ) (st2 : States) (d2 : ℚ)
      (v : Name) (s : VariableState),
      forward_vars e names st d = .ok (st2, d2) →
      alistGet st v = some s → s.locked = true →
      alistGet st2 v = some s := by
  intro names
  induction names with
  | nil =>
    intro st d st2 d2 v s h hget hlock
    simp only [forward_vars, Except.ok.injEq, Prod.mk.injEq] at h
    obtain ⟨h1, _⟩ := h
    subst h1
    exact hget
  | cons vn rest ih =>
    intro st d st2 d2 v s h hget hlock
    by_cases hvn : vn = v
    · subst hvn
      simp only [forward_vars] at h
      split at h
      · exact ih _ _ _ _ _ _ h hget hlock
      · rw [hget] at h
        simp only [Option.getD_some, hlock, if_true, eq_self_iff_true] at h
        exact ih _ _ _ _ _ _ h hget hlock
    · simp only [forward_vars] at h
      split at h
      · exact ih _ _ _ _ _ _ h hget hlock
      · split at h
        · exact ih _ _ _ _ _ _ h hget hlock
        · split at h
          · exact absurd h (by simp)
          · split at h
            · exact ih _ _ _ _ _ _ h hget hlock
            · exact ih _ _ _ _ _ _ h
                (by rw [alistGet_alistSet_ne _ _ _ _ (Ne.symm hvn)]; exact hget) hlock

theorem apply_attack_loop_locked (source : Name) (w : ℚ) :
    ∀ (ts : List Name) (st : States) (d : ℚ) (v : Name) (s : VariableState),
      alistGet st v = some s → s.locked = true →
      alistGet (apply_attack_loop source w ts st d).1 v = some s := by
  intro ts
  induction ts with
  | nil => intro st d v s hget _; exact hget
  | cons t rest ih =>
    intro st d v s hget hlock
    by_cases htv : t = v
    · subst htv
      simp only [apply_attack_loop]
      split
      · exact ih _ _ _ _ hget hlock
      · next ts2 hts =>
        rw [hget] at hts
        cases hts
        rw [if_pos hlock]
        exact ih _ _ _ _ hget hlock
    · simp only [apply_attack_loop]
      split
      · exact ih _ _ _ _ hget hlock
      · split
        · exact ih _ _ _ _ hget hlock
        · exact ih _ _ _ _
            (by rw [alistGet_alistSet_ne _ _ _ _ (Ne.symm htv)]; exact hget) hlock

theorem apply_support_loop_locked (source : Name) (w : ℚ) :
    ∀ (ts : List Name) (st : States) (d : ℚ) (v : Name) (s : VariableState),
      alistGet st v = some s → s.locked = true →
      alistGet (apply_support_loop source w ts st d).1 v = some s := by
  intro ts
  induction ts with
  | nil => intro st d v s hget _; exact hget
  | cons t rest ih =>
    intro st d v s hget hlock
    by_cases htv : t = v
    · subst htv
      simp only [apply_support_loop]
      split
      · exact ih _ _ _ _ hget hlock
      · next ts2 hts =>
        rw [hget] at hts
        cases hts
        rw [if_pos hlock]
        exact ih _ _ _ _ hget hlock
    · simp only [apply_support_loop]
      split
      · exact ih _ _ _ _ hget hlock
      · split
        · exact ih _ _ _ _ hget hlock
        · exact ih _ _ _ _
            (by rw [alistGet_alistSet_ne _ _ _ _ (Ne.symm htv)]; exact hget) hlock

theorem apply_attack_locked (st : States) (c : Constraint) (v : Name) (s : VariableState)
    (hget : alistGet st v = some s) (hlock : s.locked = true) :
    alistGet (apply_attack st c).1 v = some s := by
  simp only [apply_attack]
  split
  · exact hget
  · exact apply_attack_loop_locked _ _ _ _ _ _ _ hget hlock

theorem apply_support_locked (st : States) (c : Constraint) (v : Name) (s : VariableState)
    (hget : alistGet st v = some s) (hlock : s.locked = true) :
    alistGet (apply_support st c).1 v = some s := by
  simp only [apply_support]
  split
  · exact hget
  · exact apply_support_loop_locked _ _ _ _ _ _ _ hget hlock

theorem apply_constraints_loop_locked :
    ∀ (cs : List (Name × Constraint)) (st : States) (d : ℚ) (v : Name) (s : VariableState),
      alistGet st v = some s → s.locked = true →
      alistGet (apply_constraints_loop cs st d).1 v = some s := by
  intro cs
  induction cs with
  | nil => intro st d v s hget _; exact hget
  | cons c rest ih =>
    intro st d v s hget hlock
    simp only [apply_constraints_loop]
    split
    · exact ih _ _ _ _ (apply_attack_locked _ _ _ _ hget hlock) hlock
    · split
      · exact ih _ _ _ _ (apply_support_locked _ _ _ _ hget hlock) hlock
      · exact ih _ _ _ _ hget hlock

theorem run_loop_locked :
    ∀ (n : Nat) (e : NeuroEngine) (e2 : NeuroEngine) (k : Nat) (v : Name) (s : VariableState),
      run_loop e n = .ok (e2, k) →
      alistGet e.states v = some s → s.locked = true →
      alistGet e2.states v = some s := by
  intro n
  induction n with
  | zero =>
    intro e e2 k v s h hget hlock
    simp only [run_loop, Except.ok.injEq, Prod.mk.injEq] at h
    obtain ⟨h1, _⟩ := h
    subst h1
    exact hget
  | succ n ih =>
    intro e e2 k v s h hget hlock
    simp only [run_loop] at h
    split at h
    · exact absurd h (by simp)
    · next st1 rd heq =>
      have hg1 : alistGet st1 v = some s :=
        forward_vars_locked e _ _ _ _ _ _ _ heq hget hlock
      have hg2 : alistGet (apply_constraints { e with states := st1 }).1 v = some s :=
        apply_constraints_loop_locked _ _ _ _ _ hg1 hlock
      split at h
      · simp only [Except.ok.injEq, Prod.mk.injEq] at h
        obtain ⟨h1, _⟩ := h
        subst h1
        exact hg2
      · split at h
        · exact absurd h (by simp)
        · next ef k2 heq2 =>
          simp only [Except.ok.injEq, Prod.mk.injEq] at h
          obtain ⟨h1, _⟩ := h
          subst h1
          exact ih _ _ _ _ _ heq2 hg2 hlock

/-! ## Entry-level characterisation of reset, evidence and load -/

theorem get_all_values_get (e : NeuroEngine) (v : Name) :
    alistGet (get_all_values e) v = (alistGet e.states v).map (fun s => s.value) := by
  unfold get_all_values
  induction e.states with
  | nil => rfl
  | cons q rest ih =>
    by_cases h : q.1 = v
    · simp [alistGet, h]
    · simp [alistGet, h, ih]

theorem alistGet_isSome_alistSet {β : Type} (l : List (Name × β)) (k k2 : Name) (v : β)
    (h : (alistGet l k2).isSome = true) : (alistGet (alistSet l k v) k2).isSome = true := by
  by_cases hk : k2 = k
  · subst hk
    rw [alistGet_alistSet_self]
    rfl
  · rw [alistGet_alistSet_ne _ _ _ _ hk]
    exact h

theorem apply_evidence_get_not_mem :
    ∀ (ev : List (Name × ℚ)) (st : States) (v : Name),
      v ∉ ev.map (fun p => p.1) →
      alistGet (apply_evidence ev st) v = alistGet st v := by
  intro ev
  induction ev with
  | nil => intro st v _; rfl
  | cons q rest ih =>
    intro st v hv
    simp only [List.map_cons, List.mem_cons] at hv
    push_neg at hv
    have hstep : alistGet (match alistGet st q.1 with
        | some _ => alistSet st q.1 { value := clamp q.2, locked := true }
        | none => st) v = alistGet st v := by
      split
      · exact alistGet_alistSet_ne _ _ _ _ hv.1
      · rfl
    calc alistGet (apply_evidence (q :: rest) st) v
        = alistGet (apply_evidence rest (match alistGet st q.1 with
            | some _ => alistSet st q.1 { value := clamp q.2, locked := true }
            | none => st)) v := rfl
      _ = alistGet st v := by rw [ih _ _ hv.2, hstep]

theorem apply_evidence_cons (q : Name × ℚ) (rest : List (Name × ℚ)) (st : States) :
    apply_evidence (q :: rest) st
      = apply_evidence rest (match alistGet st q.1 with
          | some _ => alistSet st q.1 { value := clamp q.2, locked := true }
          | none => st) := rfl

theorem reset_cons (q : Name × Variable) (rest : List (Name × Variable)) (st : States) :
    reset_to_priors (q :: rest) st
      = reset_to_priors rest (match alistGet st q.1 with
          | some _ => alistSet st q.1 (mkVarState q.2)
          | none => st) := rfl

theorem apply_evidence_get_mem :
    ∀ (ev : List (Name × ℚ)) (st : States) (v : Name) (val : ℚ),
      (ev.map (fun p => p.1)).Nodup → (v, val) ∈ ev →
      (alistGet st v).isSome = true →
      alistGet (apply_evidence ev st) v = some { value := clamp val, locked := true } := by
  intro ev
  induction ev with
  | nil => intro st v val _ hmem; simp at hmem
  | cons q rest ih =>
    intro st v val hnd hmem
    intro hsome
    simp only [List.map_cons, List.nodup_cons] at hnd
    rcases List.mem_cons.mp hmem with hq | hq
    · subst hq
      have hset : (match alistGet st v with
          | some _ => alistSet st v { value := clamp val, locked := true }
          | none => st) = alistSet st v { value := clamp val, locked := true } := by
        cases hg : alistGet st v with
        | none => rw [hg] at hsome; simp at hsome
        | some s => rfl
      rw [apply_evidence_cons, hset,
        apply_evidence_get_not_mem rest _ v hnd.1, alistGet_alistSet_self]
    · have hqv : q.1 ≠ v := by
        intro hq1
        exact hnd.1 (hq1 ▸ List.mem_map.mpr ⟨(v, val), hq, rfl⟩)
      have hsome2 : (alistGet (match alistGet st q.1 with
          | some _ => alistSet st q.1 { value := clamp q.2, locked := true }
          | none => st) v).isSome = true := by
        split
        · exact alistGet_isSome_alistSet _ _ _ _ hsome
        · exact hsome
      exact ih _ _ _ hnd.2 hq hsome2

theorem reset_get_not_mem :
    ∀ (vs : List (Name × Variable)) (st : States) (v : Name),
      v ∉ vs.map (fun p => p.1) →
      alistGet (reset_to_priors vs st) v = alistGet st v := by
  intro vs
  induction vs with
  | nil => intro st v _; rfl
  | cons q rest ih =>
    intro st v hv
    simp only [List.map_cons, List.mem_cons] at hv
    push_neg at hv
    have hstep : alistGet (match alistGet st q.1 with
        | some _ => alistSet st q.1 (mkVarState q.2)
        | none => st) v = alistGet st v := by
      split
      · exact alistGet_alistSet_ne _ _ _ _ hv.1
      · rfl
    calc alistGet (reset_to_priors (q :: rest) st) v
        = alistGet (reset_to_priors rest (match alistGet st q.1 with
            | some _ => alistSet st q.1 (mkVarState q.2)
            | none => st)) v := rfl
      _ = alistGet st v := by rw [ih _ _ hv.2, hstep]

theorem reset_get_mem :
    ∀ (vs : List (Name × Variable)) (st : States) (v : Name) (var : Variable),
      (vs.map (fun p => p.1)).Nodup → (v, var) ∈ vs →
      (alistGet st v).isSome = true →
      alistGet (reset_to_priors vs st) v = some (mkVarState var) := by
  intro vs
  induction vs with
  | nil => intro st v var _ hmem; simp at hmem
  | cons q rest ih =>
    intro st v var hnd hmem hsome
    simp only [List.map_cons, List.nodup_cons] at hnd
    rcases List.mem_cons.mp hmem with hq | hq
    · subst hq
      have hset : (match alistGet st v with
          | some _ => alistSet st v (mkVarState var)
          | none => st) = alistSet st v (mkVarState var) := by
        cases hg : alistGet st v with
        | none => rw [hg] at hsome; simp at hsome
        | some s => rfl
      rw [reset_cons, hset,
        reset_get_not_mem rest _ v hnd.1, alistGet_alistSet_self]
    · have hqv : q.1 ≠ v := by
        intro hq1
        exact hnd.1 (hq1 ▸ List.mem_map.mpr ⟨(v, var), hq, rfl⟩)
      have hsome2 : (alistGet (match alistGet st q.1 with
          | some _ => alistSet st q.1 (mkVarState q.2)
          | none => st) v).isSome = true := by
        split
        · exact alistGet_isSome_alistSet _ _ _ _ hsome
        · exact hsome
      exact ih _ _ _ hnd.2 hq hsome2

theorem reset_get_isSome :
    ∀ (vs : List (Name × Variable)) (st : States) (v : Name),
      (alistGet st v).isSome = true →
      (alistGet (reset_to_priors vs st) v).isSome = true := by
  intro vs
  induction vs with
  | nil => intro st v h; exact h
  | cons q rest ih =>
    intro st v h
    have hstep : (alistGet (match alistGet st q.1 with
        | some _ => alistSet st q.1 (mkVarState q.2)
        | none => st) v).isSome = true := by
      split
      · exact alistGet_isSome_alistSet _ _ _ _ h
      · exact h
    exact ih _ _ hstep

theorem foldl_alistSet_append {β : Type} :
    ∀ (l : List (Name × β)) (init : List (Name × β)),
      (∀ k ∈ l.map (fun p => p.1), k ∉ init.map (fun p => p.1)) →
      (l.map (fun p => p.1)).Nodup →
      List.foldl (fun acc p => alistSet acc p.1 p.2) init l = init ++ l := by
  intro l
  induction l with
  | nil => intro init _ _; simp
  | cons q rest ih =>
    intro init hdis hnd
    simp only [List.map_cons, List.nodup_cons] at hnd
    have hq : q.1 ∉ init.map (fun p => p.1) :=
      hdis q.1 (List.mem_map.mpr ⟨q, List.mem_cons_self q rest, rfl⟩)
    have hdis2 : ∀ k ∈ rest.map (fun p => p.1), k ∉ (init ++ [q]).map (fun p => p.1) := by
      intro k hk
      rcases List.mem_map.mp hk with ⟨p, hp, hpk⟩
      intro hc
      rw [List.map_append] at hc
      rcases List.mem_append.mp hc with hc1 | hc1
      · exact hdis k (List.mem_map.mpr ⟨p, List.mem_cons_of_mem q hp, hpk⟩) hc1
      · simp only [List.map_cons, List.map_nil, List.mem_singleton] at hc1
        exact hnd.1 (hc1 ▸ List.mem_map.mpr ⟨p, hp, hpk⟩)
    calc List.foldl (fun acc p => alistSet acc p.1 p.2) init (q :: rest)
        = List.foldl (fun acc p => alistSet acc p.1 p.2) (alistSet init q.1 q.2) rest := rfl
      _ = (init ++ [q]) ++ rest := by
          rw [alistSet_of_not_mem _ _ _ hq]
          exact ih _ hdis2 hnd.2
      _ = init ++ (q :: rest) := by simp

theorem foldl_alistSet_eq_self {β : Type} (l : List (Name × β))
    (h : (l.map (fun p => p.1)).Nodup) :
    List.foldl (fun acc p => alistSet acc p.1 p.2) [] l = l := by
  have h2 := foldl_alistSet_append l [] (fun k _ => List.not_mem_nil k) h
  simpa using h2

theorem states_vars_get :
    ∀ (l : List (Name × Variable)) (stInit : States) (vsInit : List (Name × Variable)),
      (∀ k, alistGet stInit k = (alistGet vsInit k).map mkVarState) →
      ∀ k, alistGet (List.foldl (fun st p => alistSet st p.1 (mkVarState p.2)) stInit l) k
        = (alistGet (List.foldl (fun vs p => alistSet vs p.1 p.2) vsInit l) k).map mkVarState := by
  intro l
  induction l with
  | nil => intro stInit vsInit h k; exact h k
  | cons q rest ih =>
    intro stInit vsInit h k
    refine ih _ _ ?_ k
    intro k2
    by_cases hk : k2 = q.1
    · subst hk
      rw [alistGet_alistSet_self, alistGet_alistSet_self]
      rfl
    · rw [alistGet_alistSet_ne _ _ _ _ hk, alistGet_alistSet_ne _ _ _ _ hk]
      exact h k2

theorem load_states_get (schema : NeuroJSON) (cfg : EngineConfig) (v : Name) :
    alistGet (NeuroEngine.load schema cfg).states v
      = (alistGet (NeuroEngine.load schema cfg).vars v).map mkVarState := by
  rw [load_states, load_vars]
  exact states_vars_get schema.vars [] [] (fun k => rfl) v

/-- C2 (confirmed): for a declared variable `v`, (a) if `v` is in the evidence
map then `run(E)[v] = clamp(E[v])`; (b) if `v` is declared locked and not in
the evidence map then `run(E)[v]` is the declared prior; (c) the forward pass
and the constraint pass leave a locked variable's state unchanged.
(The schema's variable names and the evidence keys are Python dict keys,
hence `Nodup`.) -/
theorem c2_locked_and_evidence (schema : NeuroJSON) (cfg : EngineConfig)
    (E : List (Name × ℚ)) (its : Option Nat) (v : Name)
    (hvars : (schema.vars.map (fun p => p.1)).Nodup)
    (hE : (E.map (fun p => p.1)).Nodup) :
    (∀ val, (v, val) ∈ E → v ∈ schema.vars.map (fun p => p.1) →
      ∀ m, (NeuroEngine.load schema cfg).run E its = .ok m →
        alistGet m v = some (clamp val)) ∧
    (∀ var, (v, var) ∈ schema.vars → var.locked = some true →
      v ∉ E.map (fun p => p.1) →
      ∀ m, (NeuroEngine.load schema cfg).run E its = .ok m →
        alistGet m v = some (var.prior.getD (1/2))) ∧
    (∀ (e : NeuroEngine) (s : VariableState), alistGet e.states v = some s →
      s.locked = true →
      (∀ st2 d2, forward_pass e = .ok (st2, d2) → alistGet st2 v = some s) ∧
      alistGet (apply_constraints e).1 v = some s) := by
  have hloadvars : (NeuroEngine.load schema cfg).vars = schema.vars := by
    rw [load_vars]
    exact foldl_alistSet_eq_self schema.vars hvars
  refine ⟨?_, ?_, ?_⟩
  · -- (a) evidence wins
    intro val hvE hdecl m hrun
    unfold NeuroEngine.run at hrun
    cases hre : run_engine (NeuroEngine.load schema cfg) E its with
    | error msg => rw [hre] at hrun; exact absurd hrun (by simp [Except.map])
    | ok pair =>
      rw [hre] at hrun
      simp only [Except.map, Except.ok.injEq] at hrun
      subst hrun
      have hsome0 : (alistGet (NeuroEngine.load schema cfg).states v).isSome = true := by
        rw [load_states_get, hloadvars]
        have := (alistGet_isSome_iff schema.vars v).mpr hdecl
        cases hg : alistGet schema.vars v with
        | none => rw [hg] at this; simp at this
        | some var => rfl
      have hsome1 := reset_get_isSome (NeuroEngine.load schema cfg).vars _ v hsome0
      have hev := apply_evidence_get_mem E _ v val hE hvE hsome1
      unfold run_engine at hre
      have hfin := run_loop_locked _ _ _ _ v { value := clamp val, locked := true } hre hev rfl
      rw [get_all_values_get, hfin]
      rfl
  · -- (b) declared locked, not in evidence
    intro var hvdecl hlockdecl hvE m hrun
    unfold NeuroEngine.run at hrun
    cases hre : run_engine (NeuroEngine.load schema cfg) E its with
    | error msg => rw [hre] at hrun; exact absurd hrun (by simp [Except.map])
    | ok pair =>
      rw [hre] at hrun
      simp only [Except.map, Except.ok.injEq] at hrun
      subst hrun
      have hsome0 : (alistGet (NeuroEngine.load schema cfg).states v).isSome = true := by
        rw [load_states_get, hloadvars]
        have hdecl : v ∈ schema.vars.map (fun p => p.1) :=
          List.mem_map.mpr ⟨(v, var), hvdecl, rfl⟩
        have := (alistGet_isSome_iff schema.vars v).mpr hdecl
        cases hg : alistGet schema.vars v with
        | none => rw [hg] at this; simp at this
        | some var2 => rfl
      have hreset : alistGet (reset_to_priors (NeuroEngine.load schema cfg).vars
          (NeuroEngine.load schema cfg).states) v = some (mkVarState var) := by
        rw [hloadvars]
        exact reset_get_mem schema.vars _ v var hvars hvdecl hsome0
      have hev : alistGet (apply_evidence E (reset_to_priors
          (NeuroEngine.load schema cfg).vars (NeuroEngine.load schema cfg).states)) v
          = some (mkVarState var) := by
        rw [apply_evidence_get_not_mem E _ v hvE]
        exact hreset
      have hlockv : (mkVarState var).locked = true := by
        unfold mkVarState
        rw [hlockdecl]
        rfl
      unfold run_engine at hre
      have hfin := run_loop_locked _ _ _ _ v (mkVarState var) hre hev hlockv
      rw [get_all_values_get, hfin]
      rfl
  · -- (c) the two passes freeze locked variables
    intro e s hget hlock
    constructor
    · intro st2 d2 hfp
      exact forward_vars_locked e _ _ _ _ _ _ _ hfp hget hlock
    · exact apply_constraints_loop_locked _ _ _ _ _ hget hlock

/-- C2 witness: the theorem applied to a one-variable schema with evidence. -/
theorem c2_witness : alistGet [((['a'] : Name), (1 : ℚ))] ['a'] = some (clamp 2) :=
  (c2_locked_and_evidence schemaLockedWit create_default_config [(['a'], 2)] none ['a']
      (by with_unfolding_all decide) (by with_unfolding_all decide)).1 2
    (by with_unfolding_all decide) (by with_unfolding_all decide)
    [(['a'], 1)] (by with_unfolding_all decide)

/-! ## Iteration counting (C3) -/

theorem run_loop_count_le :
    ∀ (n : Nat) (e : NeuroEngine) (e2 : NeuroEngine) (k : Nat),
      run_loop e n = .ok (e2, k) → k ≤ n := by
  intro n
  induction n with
  | zero =>
    intro e e2 k h
    simp only [run_loop, Except.ok.injEq, Prod.mk.injEq] at h
    omega
  | succ n ih =>
    intro e e2 k h
    simp only [run_loop] at h
    split at h
    · exact absurd h (by simp)
    · split at h
      · simp only [Except.ok.injEq, Prod.mk.injEq] at h
        omega
      · split at h
        · exact absurd h (by simp)
        · next ef k2 heq2 =>
          simp only [Except.ok.injEq, Prod.mk.injEq] at h
          have := ih _ _ _ heq2
          omega

/-- C3 (counterexample): `run` uses Python `iterations or max_iterations`,
not `max(iterations, max_iterations)`. On the chain schema with evidence
`a = 1`, `run(E, iterations=1)` performs exactly 1 iteration while
`run(E)` performs 10 before converging, although `1 < max_iterations = 100`;
the two calls return different values, so passing a small explicit
`iterations` does lower the cap. -/
theorem c3_counterexample :
    run_count (NeuroEngine.load schemaChain create_default_config) [(['a'], 1)] (some 1)
        = .ok 1 ∧
    run_count (NeuroEngine.load schemaChain create_default_config) [(['a'], 1)] none
        = .ok 10 ∧
    1 < create_default_config.max_iterations ∧
    (NeuroEngine.load schemaChain create_default_config).run [(['a'], 1)] (some 1)
      ≠ (NeuroEngine.load schemaChain create_default_config).run [(['a'], 1)] none :=
  ⟨by with_unfolding_all decide, by with_unfolding_all decide,
   by with_unfolding_all decide, by with_unfolding_all decide⟩

/-- C3 (amended): `run` performs at most `effective_iterations` iterations,
where the cap is the explicit `iterations` argument itself when it is given
and nonzero (Python `iterations or config.max_iterations`) — not
`max(iterations, config.max_iterations)` — and `config.max_iterations`
otherwise; each iteration is one forward pass then one constraint pass, with
early exit when the maximum absolute change drops below the threshold. -/
theorem c3_iteration_cap :
    (∀ (cfg : EngineConfig) (n : Nat), 0 < n → effective_iterations cfg (some n) = n) ∧
    (∀ (e : NeuroEngine) (ev : List (Name × ℚ)) (its : Option Nat)
        (e2 : NeuroEngine) (k : Nat),
      run_engine e ev its = .ok (e2, k) → k ≤ effective_iterations e.config its) := by
  constructor
  · intro cfg n hn
    show (if n = 0 then cfg.max_iterations else n) = n
    rw [if_neg (Nat.pos_iff_ne_zero.mp hn)]
  · intro e ev its e2 k h
    unfold run_engine at h
    exact run_loop_count_le _ _ _ _ h

/-- C3 witness: the amended cap formula applied at `iterations = 5`. -/
theorem c3_witness : effective_iterations create_default_config (some 5) = 5 :=
  c3_iteration_cap.1 create_default_config 5 (by norm_num)

/-! ## Exception behaviour (C4) -/

theorem apply_operation_ok (op : Name) (inputs : List ℚ) (w : Option (List ℚ))
    (h : op.map Char.toUpper ∈ validOps) : ∃ q, apply_operation op inputs w = .ok q := by
  unfold validOps at h
  unfold apply_operation
  simp only [List.mem_cons, List.mem_singleton, List.not_mem_nil, or_false] at h
  rcases h with h | h | h | h | h <;> rw [h]
  · rw [if_pos rfl]
    exact ⟨_, rfl⟩
  · rw [if_neg (by with_unfolding_all decide), if_pos rfl]
    exact ⟨_, rfl⟩
  · rw [if_neg (by with_unfolding_all decide), if_neg (by with_unfolding_all decide),
      if_pos rfl]
    exact ⟨_, rfl⟩
  · rw [if_neg (by with_unfolding_all decide), if_neg (by with_unfolding_all decide),
      if_neg (by with_unfolding_all decide), if_pos rfl]
    exact ⟨_, rfl⟩
  · rw [if_neg (by with_unfolding_all decide), if_neg (by with_unfolding_all decide),
      if_neg (by with_unfolding_all decide), if_neg (by with_unfolding_all decide),
      if_pos rfl]
    exact ⟨_, rfl⟩

theorem evaluate_rule_ok (st : States) (r : Rule) (h : GoodRule r) :
    ∃ q, evaluate_rule st r = .ok q := by
  unfold evaluate_rule
  split
  · exact ⟨_, rfl⟩
  · by_cases ht : r.type.getD tIMPLICATION = tIMPLICATION
    · rw [if_pos ht]
      rcases apply_operation_ok (r.op.getD tIDENTITY) _ none (h ht) with ⟨q, hq⟩
      rw [hq]
      exact ⟨_, rfl⟩
    · rw [if_neg ht]
      split
      · exact ⟨_, rfl⟩
      · split
        · exact ⟨_, rfl⟩
        · split
          · split
            · exact ⟨_, rfl⟩
            · exact ⟨_, rfl⟩
            · exact ⟨_, rfl⟩
          · exact ⟨_, rfl⟩

theorem gather_contributions_ok (e : NeuroEngine) (st : States)
    (hr : ∀ rid r, alistGet e.rules rid = some r → GoodRule r) :
    ∀ rids, ∃ p, gather_contributions e st rids = .ok p := by
  intro rids
  induction rids with
  | nil => exact ⟨_, rfl⟩
  | cons rid rest ih =>
    simp only [gather_contributions]
    cases hg : alistGet e.rules rid with
    | none => exact ih
    | some rule =>
      dsimp only
      rcases evaluate_rule_ok st rule (hr rid rule hg) with ⟨q, hq⟩
      rw [hq]
      cases q with
      | none => exact ih
      | some v =>
        dsimp only
        rcases ih with ⟨p, hp⟩
        rw [hp]
        exact ⟨_, rfl⟩

theorem forward_vars_ok (e : NeuroEngine)
    (hr : ∀ rid r, alistGet e.rules rid = some r → GoodRule r) :
    ∀ (names : List Name) (st : States) (d : ℚ),
      ∃ p, forward_vars e names st d = .ok p := by
  intro names
  induction names with
  | nil => intro st d; exact ⟨_, rfl⟩
  | cons vn rest ih =>
    intro st d
    simp only [forward_vars]
    split
    · exact ih _ _
    · split
      · exact ih _ _
      · rcases gather_contributions_ok e st hr ((alistGet e.varToOutputRules vn).getD [])
          with ⟨⟨cs, ws⟩, hg⟩
        rw [hg]
        split
        · next m heqb => exact absurd heqb (by simp)
        · next cs2 ws2 heqb =>
          split
          · exact ih _ _
          · exact ih _ _

theorem run_loop_ok :
    ∀ (n : Nat) (e : NeuroEngine),
      (∀ rid r, alistGet e.rules rid = some r → GoodRule r) →
      ∃ p, run_loop e n = .ok p := by
  intro n
  induction n with
  | zero => intro e _; exact ⟨_, rfl⟩
  | succ n ih =>
    intro e hr
    simp only [run_loop]
    rcases forward_vars_ok e hr (e.vars.map (fun p => p.1)) e.states 0 with ⟨⟨st1, rd⟩, hf⟩
    rw [show forward_pass e = .ok (st1, rd) from hf]
    split
    · next m heqb => exact absurd heqb (by simp)
    · next st1b rdb heqb =>
      simp only [Except.ok.injEq, Prod.mk.injEq] at heqb
      obtain ⟨h1, h2⟩ := heqb
      subst h1
      subst h2
      split
      · exact ⟨_, rfl⟩
      · rcases ih { e with states := (apply_constraints { e with states := st1 }).1 } hr
          with ⟨⟨ef, k⟩, hl⟩
        rw [hl]
        exact ⟨_, rfl⟩

theorem foldl_rules_mem :
    ∀ (l : List Rule) (init : List (Name × Rule)) (rid : Name) (r : Rule),
      alistGet (List.foldl (fun rs r2 => alistSet rs r2.id r2) init l) rid = some r →
      r ∈ l ∨ alistGet init rid = some r := by
  intro l
  induction l with
  | nil => intro init rid r h; exact Or.inr h
  | cons q rest ih =>
    intro init rid r h
    rcases ih _ _ _ h with h1 | h1
    · exact Or.inl (List.mem_cons_of_mem q h1)
    · by_cases hq : rid = q.id
      · subst hq
        rw [alistGet_alistSet_self] at h1
        cases h1
        exact Or.inl (List.mem_cons_self q rest)
      · rw [alistGet_alistSet_ne _ _ _ _ hq] at h1
        exact Or.inr h1

theorem load_rules_mem (schema : NeuroJSON) (cfg : EngineConfig) (rid : Name) (r : Rule)
    (h : alistGet (NeuroEngine.load schema cfg).rules rid = some r) : r ∈ schema.rules := by
  rw [load_rules] at h
  rcases foldl_rules_mem schema.rules [] rid r h with h1 | h1
  · exact h1
  · simp [alistGet] at h1

/-- C4 (counterexample): inference does raise on malformed data — on the
schema whose single IMPLICATION rule has the unknown op string `"FOO"`,
`run({})` raises `ValueError("Unknown operation: FOO")` from
`apply_operation` instead of ignoring the rule and returning a result. -/
theorem c4_counterexample :
    (NeuroEngine.load schemaBadOp create_default_config).run [] none
      = .error ("Unknown operation: FOO".toList) :=
  by with_unfolding_all decide

/-- C4 (amended): `run` never raises on unresolved variable names or
undeclared rule types (such rules silently contribute nothing), but a rule
whose type is (or defaults to) `IMPLICATION` and whose op is not one of
IDENTITY/AND/OR/NOT/WEIGHTED raises `ValueError` when evaluated; when every
rule of the schema satisfies `GoodRule`, `run` returns a result for every
evidence map. -/
theorem c4_no_raise_on_good_ops (schema : NeuroJSON) (cfg : EngineConfig)
    (h : ∀ r ∈ schema.rules, GoodRule r) (ev : List (Name × ℚ)) (its : Option Nat) :
    ∃ m, (NeuroEngine.load schema cfg).run ev its = .ok m := by
  have hr : ∀ rid r, alistGet (NeuroEngine.load schema cfg).rules rid = some r →
      GoodRule r :=
    fun rid r hg => h r (load_rules_mem schema cfg rid r hg)
  unfold NeuroEngine.run run_engine
  rcases run_loop_ok
      (effective_iterations (NeuroEngine.load schema cfg).config its)
      { NeuroEngine.load schema cfg with
        states := apply_evidence ev (reset_to_priors (NeuroEngine.load schema cfg).vars
          (NeuroEngine.load schema cfg).states) } hr
    with ⟨⟨ef, k⟩, hl⟩
  rw [hl]
  exact ⟨_, rfl⟩

/-- C4 witness: the amended theorem applied to the chain schema. -/
theorem c4_witness : ∃ m,
    (NeuroEngine.load schemaChain create_default_config).run [(['a'], 1)] (some 1)
      = .ok m :=
  c4_no_raise_on_good_ops schemaChain create_default_config
    (by with_unfolding_all decide) [(['a'], 1)] (some 1)

/-! ## Zero-weight combining (C5) and EQUIVALENCE evaluation (C6) -/

/-- C5 (counterexample): on the schema whose single rule outputs to `v` with
weight 0 (total weight 0), a single forward pass moves `v` from its prior
`1/5` to `clamp(0.5·0.5 + 0.5·0.2) = 7/20`: the variable *is* updated. -/
theorem c5_counterexample :
    forward_pass (NeuroEngine.load schemaZeroWeight create_default_config)
        = .ok ([(['v'], { value := 7/20, locked := false })], 3/20) ∧
    ((7:ℚ)/20) ≠ 1/5 :=
  ⟨by with_unfolding_all decide, by norm_num⟩

/-- C5 (amended): in the forward pass, when the contributing rules of an
unlocked variable have total weight 0 but at least one rule contributes, the
combined contribution falls back to `0.5` and the variable is updated to
`clamp(α·0.5 + (1−α)·old)` (its value is unchanged only when no rule
contributes at all). -/
theorem c5_zero_weight_update (e : NeuroEngine) (vn : Name) (rest : List Name)
    (st : States) (d : ℚ) (s : VariableState) (cs ws : List ℚ)
    (hget : alistGet st vn = some s) (hnl : s.locked = false)
    (hrid : (alistGet e.varToOutputRules vn).getD [] ≠ [])
    (hg : gather_contributions e st ((alistGet e.varToOutputRules vn).getD [])
      = .ok (cs, ws))
    (hcs : cs ≠ []) (hws : ws.sum = 0) :
    forward_vars e (vn :: rest) st d
      = forward_vars e rest
          (alistSet st vn { s with value := clamp (e.config.damping_factor * (1/2)
              + (1 - e.config.damping_factor) * s.value) })
          (pymax d (pyabs (e.config.damping_factor * (1/2)
              + (1 - e.config.damping_factor) * s.value - s.value))) := by
  simp only [forward_vars]
  rw [if_neg hrid, hget]
  simp only [Option.getD_some]
  rw [if_neg (by rw [hnl]; simp), hg]
  dsimp only
  rw [if_neg hcs, if_neg (by rw [hws]; norm_num)]

/-- C5 witness: the amended update applied to the zero-weight fixture. -/
theorem c5_witness :
    forward_vars eZW [['v']] eZW.states 0
      = forward_vars eZW []
          (alistSet eZW.states ['v'] { stZW with value := clamp (eZW.config.damping_factor * (1/2)
              + (1 - eZW.config.damping_factor) * stZW.value) })
          (pymax 0 (pyabs (eZW.config.damping_factor * (1/2)
              + (1 - eZW.config.damping_factor) * stZW.value - stZW.value))) :=
  c5_zero_weight_update eZW ['v'] [] eZW.states 0 stZW [0] [0]
    (by with_unfolding_all decide) (by with_unfolding_all decide)
    (by with_unfolding_all decide) (by with_unfolding_all decide)
    (by with_unfolding_all decide) (by with_unfolding_all decide)

/-- C6 (counterexample): an EQUIVALENCE rule with zero inputs is *not*
excluded from the combining step — `_evaluate_rule` returns
`0.5 · weight = 0.5`, not `None`. -/
theorem c6_counterexample :
    evaluate_rule [] ruleEquivNoInputs = .ok (some ((1:ℚ)/2)) ∧
    evaluate_rule [] ruleEquivNoInputs ≠ (.ok none : Except Err (Option ℚ)) :=
  ⟨by with_unfolding_all decide, by with_unfolding_all decide⟩

/-- C6 (amended): an EQUIVALENCE rule whose inputs all resolve evaluates to
`equivalent(inputs[0], inputs[1]) · weight` with ≥ 2 inputs, to
`inputs[0] · weight` with exactly one input, and to `0.5 · weight` — a real
contribution, not an exclusion — with zero inputs (all clamped). -/
theorem c6_equivalence_eval (st : States) (r : Rule) (ivs : List ℚ)
    (ht : r.type.getD tIMPLICATION = tEQUIVALENCE)
    (hres : resolve_inputs st r.inputs = some ivs) :
    evaluate_rule st r = .ok (some (equivResult ivs (r.weight.getD 1))) := by
  unfold evaluate_rule
  rw [hres]
  dsimp only
  rw [ht]
  rw [if_neg (by with_unfolding_all decide), if_neg (by with_unfolding_all decide),
    if_neg (by with_unfolding_all decide), if_pos rfl]
  match ivs with
  | [] => rfl
  | [a] => rfl
  | a :: b :: t => rfl

/-- C6 witness: the amended evaluation applied to the zero-input fixture. -/
theorem c6_witness :
    evaluate_rule [] ruleEquivNoInputs
      = .ok (some (equivResult [] (ruleEquivNoInputs.weight.getD 1))) :=
  c6_equivalence_eval [] ruleEquivNoInputs []
    (by with_unfolding_all decide) (by with_unfolding_all decide)

/-! ## Łukasiewicz laws (C7) -/

/-- C7 (confirmed): for `a, b ∈ [0,1]` the kernel satisfies the Łukasiewicz
laws: `fuzzy_and(a,1) = a`, `fuzzy_and(a,0) = 0`, `fuzzy_or(a,0) = a`,
`fuzzy_or(a,1) = 1`, `implies(0,b) = 1`, `implies(1,b) = b`,
`implies(a,1) = 1`, `equivalent(a,a) = 1`. -/
theorem c7_lukasiewicz_laws (a b : ℚ) (ha0 : 0 ≤ a) (ha1 : a ≤ 1)
    (hb0 : 0 ≤ b) (hb1 : b ≤ 1) :
    fuzzy_and [a, 1] = a ∧ fuzzy_and [a, 0] = 0 ∧
    fuzzy_or [a, 0] = a ∧ fuzzy_or [a, 1] = 1 ∧
    implies 0 b = 1 ∧ implies 1 b = b ∧ implies a 1 = 1 ∧
    equivalent a a = 1 := by
  refine ⟨?_, ?_, ?_, ?_, ?_, ?_, ?_, ?_⟩
  · show clamp ([a, 1].sum - (((2:Nat) : ℚ) - 1)) = a
    have : [a, 1].sum - (((2:Nat) : ℚ) - 1) = a := by
      simp [List.sum_cons]
      norm_num
    rw [this]
    exact clamp_of_mem ha0 ha1
  · show clamp ([a, 0].sum - (((2:Nat) : ℚ) - 1)) = 0
    apply clamp_of_le_zero
    simp [List.sum_cons]
    norm_num
    linarith
  · show clamp [a, 0].sum = a
    have : [a, (0:ℚ)].sum = a := by simp
    rw [this]
    exact clamp_of_mem ha0 ha1
  · show clamp [a, 1].sum = 1
    apply clamp_of_one_le
    simp [List.sum_cons]
    linarith
  · unfold implies
    apply clamp_of_one_le
    linarith
  · unfold implies
    have : 1 - 1 + b = b := by ring
    rw [this]
    exact clamp_of_mem hb0 hb1
  · unfold implies
    apply clamp_of_one_le
    linarith
  · unfold equivalent
    rw [pyabs_eq_abs, sub_self, abs_zero, sub_zero]
    exact clamp_of_one_le le_rfl

/-- C7 witness: the laws instantiated at `a = 1/2`, `b = 1/3`. -/
theorem c7_witness :
    fuzzy_and [1/2, 1] = (1/2 : ℚ) ∧ fuzzy_and [1/2, 0] = (0 : ℚ) ∧
    fuzzy_or [1/2, 0] = (1/2 : ℚ) ∧ fuzzy_or [1/2, 1] = (1 : ℚ) ∧
    implies 0 (1/3) = (1 : ℚ) ∧ implies 1 (1/3) = (1/3 : ℚ) ∧
    implies (1/2) 1 = (1 : ℚ) ∧ equivalent (1/2) (1/2) = (1 : ℚ) :=
  c7_lukasiewicz_laws (1/2) (1/3) (by norm_num) (by norm_num) (by norm_num) (by norm_num)

/-! ## Bridge name mapping (C8) -/

/-- C8 (confirmed): the node-to-variable name map `node_<id>` is injective on
node ids, and composing it with the inverse map is the identity on node ids. -/
theorem c8_name_map_bijective :
    (∀ n1 n2 : Node, node_to_var_name n1 = node_to_var_name n2 → n1.id = n2.id) ∧
    (∀ n : Node, var_name_to_node_id (node_to_var_name n) = n.id) := by
  constructor
  · intro n1 n2 h
    unfold node_to_var_name at h
    exact List.append_cancel_left h
  · intro n
    unfold var_name_to_node_id node_to_var_name
    rw [if_pos]
    · show (nodeTag ++ n.id).drop 5 = n.id
      have h5 : nodeTag.length = 5 := rfl
      rw [← h5, List.drop_left]
    · show (nodeTag ++ n.id).take 5 = nodeTag
      have h5 : nodeTag.length = 5 := rfl
      rw [← h5, List.take_left]

/-- C8 witness: the round trip and injectivity at a concrete node. -/
theorem c8_witness :
    var_name_to_node_id (node_to_var_name exNode) = exNode.id ∧ exNode.id = exNode.id :=
  ⟨c8_name_map_bijective.2 exNode, c8_name_map_bijective.1 exNode exNode rfl⟩

/-! ## Keys preservation and the bridge round trip (C9) -/

theorem strip_tag (s : Name) : var_name_to_node_id (nodeTag ++ s) = s := by
  unfold var_name_to_node_id
  rw [if_pos]
  · show (nodeTag ++ s).drop 5 = s
    have h5 : nodeTag.length = 5 := rfl
    rw [← h5, List.drop_left]
  · show (nodeTag ++ s).take 5 = nodeTag
    have h5 : nodeTag.length = 5 := rfl
    rw [← h5, List.take_left]

theorem alistSet_keys {β : Type} (l : List (Name × β)) (k : Name) (v : β) :
    (alistSet l k v).map (fun p => p.1)
      = if k ∈ l.map (fun p => p.1) then l.map (fun p => p.1)
        else l.map (fun p => p.1) ++ [k] := by
  by_cases h : k ∈ l.map (fun p => p.1)
  · rw [if_pos h, alistSet_keys_of_mem _ _ _ h]
  · rw [if_neg h, alistSet_of_not_mem _ _ _ h, List.map_append]
    rfl

theorem forward_vars_keys (e : NeuroEngine) :
    ∀ (names : List Name) (st : States) (d : ℚ) (st2 : States) (d2 : ℚ),
      forward_vars e names st d = .ok (st2, d2) →
      (∀ n ∈ names, n ∈ st.map (fun p => p.1)) →
      st2.map (fun p => p.1) = st.map (fun p => p.1) := by
  intro names
  induction names with
  | nil =>
    intro st d st2 d2 h _
    simp only [forward_vars, Except.ok.injEq, Prod.mk.injEq] at h
    obtain ⟨h1, _⟩ := h
    subst h1
    rfl
  | cons vn rest ih =>
    intro st d st2 d2 h hn
    have hvn : vn ∈ st.map (fun p => p.1) := hn vn (List.mem_cons_self vn rest)
    have hrest : ∀ n ∈ rest, n ∈ st.map (fun p => p.1) :=
      fun n hmem => hn n (List.mem_cons_of_mem vn hmem)
    simp only [forward_vars] at h
    split at h
    · exact ih _ _ _ _ h hrest
    · split at h
      · exact ih _ _ _ _ h hrest
      · split at h
        · exact absurd h (by simp)
        · split at h
          · exact ih _ _ _ _ h hrest
          · have hkeys := alistSet_keys_of_mem st vn
              ({ (alistGet st vn).getD {} with
                value := clamp (e.config.damping_factor *
                  (if (Prod.snd (Prod.mk (0:ℚ) (0:ℚ))) > 0 then 0 else 1/2) +
                  (1 - e.config.damping_factor) *
                  ((alistGet st vn).getD {}).value) }) hvn
            -- the exact value stored is irrelevant for the keys
            have hkeys2 : ∀ v : VariableState,
                (alistSet st vn v).map (fun p => p.1) = st.map (fun p => p.1) :=
              fun v => alistSet_keys_of_mem st vn v hvn
            rw [ih _ _ _ _ h (fun n hmem => by rw [hkeys2]; exact hrest n hmem), hkeys2]

theorem apply_attack_loop_keys (source : Name) (w : ℚ) :
    ∀ (ts : List Name) (st : States) (d : ℚ),
      (apply_attack_loop source w ts st d).1.map (fun p => p.1)
        = st.map (fun p => p.1) := by
  intro ts
  induction ts with
  | nil => intro st d; rfl
  | cons t rest ih =>
    intro st d
    simp only [apply_attack_loop]
    split
    · exact ih _ _
    · next ts2 hts =>
      split
      · exact ih _ _
      · have htmem : t ∈ st.map (fun p => p.1) := by
          rw [← alistGet_isSome_iff]
          rw [hts]
          rfl
        rw [ih _ _, alistSet_keys_of_mem st t _ htmem]

theorem apply_support_loop_keys (source : Name) (w : ℚ) :
    ∀ (ts : List Name) (st : States) (d : ℚ),
      (apply_support_loop source w ts st d).1.map (fun p => p.1)
        = st.map (fun p => p.1) := by
  intro ts
  induction ts with
  | nil => intro st d; rfl
  | cons t rest ih =>
    intro st d
    simp only [apply_support_loop]
    split
    · exact ih _ _
    · next ts2 hts =>
      split
      · exact ih _ _
      · have htmem : t ∈ st.map (fun p => p.1) := by
          rw [← alistGet_isSome_iff]
          rw [hts]
          rfl
        rw [ih _ _, alistSet_keys_of_mem st t _ htmem]

theorem apply_attack_keys (st : States) (c : Constraint) :
    (apply_attack st c).1.map (fun p => p.1) = st.map (fun p => p.1) := by
  simp only [apply_attack]
  split
  · rfl
  · exact apply_attack_loop_keys _ _ _ _ _

theorem apply_support_keys (st : States) (c : Constraint) :
    (apply_support st c).1.map (fun p => p.1) = st.map (fun p => p.1) := by
  simp only [apply_support]
  split
  · rfl
  · exact apply_support_loop_keys _ _ _ _ _

theorem apply_constraints_loop_keys :
    ∀ (cs : List (Name × Constraint)) (st : States) (d : ℚ),
      (apply_constraints_loop cs st d).1.map (fun p => p.1) = st.map (fun p => p.1) := by
  intro cs
  induction cs with
  | nil => intro st d; rfl
  | cons c rest ih =>
    intro st d
    simp only [apply_constraints_loop]
    split
    · rw [ih _ _, apply_attack_keys]
    · split
      · rw [ih _ _, apply_support_keys]
      · exact ih _ _

theorem run_loop_fields :
    ∀ (n : Nat) (e : NeuroEngine) (e2 : NeuroEngine) (k : Nat),
      run_loop e n = .ok (e2, k) →
      e2.config = e.config ∧ e2.vars = e.vars ∧ e2.rules = e.rules ∧
      e2.constraints = e.constraints ∧ e2.varToInputRules = e.varToInputRules ∧
      e2.varToOutputRules = e.varToOutputRules := by
  intro n
  induction n with
  | zero =>
    intro e e2 k h
    simp only [run_loop, Except.ok.injEq, Prod.mk.injEq] at h
    obtain ⟨h1, _⟩ := h
    subst h1
    exact ⟨rfl, rfl, rfl, rfl, rfl, rfl⟩
  | succ n ih =>
    intro e e2 k h
    simp only [run_loop] at h
    split at h
    · exact absurd h (by simp)
    · split at h
      · simp only [Except.ok.injEq, Prod.mk.injEq] at h
        obtain ⟨h1, _⟩ := h
        subst h1
        exact ⟨rfl, rfl, rfl, rfl, rfl, rfl⟩
      · split at h
        · exact absurd h (by simp)
        · next ef k2 heq2 =>
          simp only [Except.ok.injEq, Prod.mk.injEq] at h
          obtain ⟨h1, _⟩ := h
          subst h1
          rcases ih _ _ _ heq2 with ⟨hc, hv, hr, hcn, hvi, hvo⟩
          exact ⟨hc, hv, hr, hcn, hvi, hvo⟩

theorem run_loop_keys :
    ∀ (n : Nat) (e : NeuroEngine) (e2 : NeuroEngine) (k : Nat),
      run_loop e n = .ok (e2, k) →
      (∀ v ∈ e.vars.map (fun p => p.1), v ∈ e.states.map (fun p => p.1)) →
      e2.states.map (fun p => p.1) = e.states.map (fun p => p.1) := by
  intro n
  induction n with
  | zero =>
    intro e e2 k h _
    simp only [run_loop, Except.ok.injEq, Prod.mk.injEq] at h
    obtain ⟨h1, _⟩ := h
    subst h1
    rfl
  | succ n ih =>
    intro e e2 k h hsub
    simp only [run_loop] at h
    split at h
    · exact absurd h (by simp)
    · next st1 rd heq =>
      have hk1 : st1.map (fun p => p.1) = e.states.map (fun p => p.1) :=
        forward_vars_keys e _ _ _ _ _ heq hsub
      have hk2 : (apply_constraints { e with states := st1 }).1.map (fun p => p.1)
          = e.states.map (fun p => p.1) := by
        calc (apply_constraints { e with states := st1 }).1.map (fun p => p.1)
            = st1.map (fun p => p.1) := apply_constraints_loop_keys _ _ _
          _ = e.states.map (fun p => p.1) := hk1
      split at h
      · simp only [Except.ok.injEq, Prod.mk.injEq] at h
        obtain ⟨h1, _⟩ := h
        subst h1
        exact hk2
      · split at h
        · exact absurd h (by simp)
        · next ef k2 heq2 =>
          simp only [Except.ok.injEq, Prod.mk.injEq] at h
          obtain ⟨h1, _⟩ := h
          subst h1
          rw [ih _ _ _ heq2 (fun v hv => by rw [hk2]; exact hsub v hv), hk2]

theorem reset_keys :
    ∀ (vs : List (Name × Variable)) (st : States),
      (reset_to_priors vs st).map (fun p => p.1) = st.map (fun p => p.1) := by
  intro vs
  induction vs with
  | nil => intro st; rfl
  | cons q rest ih =>
    intro st
    rw [reset_cons]
    have hstep : ((match alistGet st q.1 with
        | some _ => alistSet st q.1 (mkVarState q.2)
        | none => st : States)).map (fun p => p.1) = st.map (fun p => p.1) := by
      split
      · next s hs =>
        have : q.1 ∈ st.map (fun p => p.1) := by
          rw [← alistGet_isSome_iff, hs]
          rfl
        exact alistSet_keys_of_mem st q.1 _ this
      · rfl
    rw [ih _, hstep]

theorem apply_evidence_keys :
    ∀ (ev : List (Name × ℚ)) (st : States),
      (apply_evidence ev st).map (fun p => p.1) = st.map (fun p => p.1) := by
  intro ev
  induction ev with
  | nil => intro st; rfl
  | cons q rest ih =>
    intro st
    rw [apply_evidence_cons]
    have hstep : ((match alistGet st q.1 with
        | some _ => alistSet st q.1 { value := clamp q.2, locked := true }
        | none => st : States)).map (fun p => p.1) = st.map (fun p => p.1) := by
      split
      · next s hs =>
        have : q.1 ∈ st.map (fun p => p.1) := by
          rw [← alistGet_isSome_iff, hs]
          rfl
        exact alistSet_keys_of_mem st q.1 _ this
      · rfl
    rw [ih _, hstep]

theorem foldl_set_keys_sub {β γ : Type} (f : γ → Name) (g : γ → β) :
    ∀ (l : List γ) (init : List (Name × β)) (k : Name),
      k ∈ (List.foldl (fun acc x => alistSet acc (f x) (g x)) init l).map (fun p => p.1) →
      k ∈ init.map (fun p => p.1) ∨ k ∈ l.map f := by
  intro l
  induction l with
  | nil => intro init k h; exact Or.inl h
  | cons x rest ih =>
    intro init k h
    rcases ih _ _ h with h1 | h1
    · rw [alistSet_keys] at h1
      split at h1
      · exact Or.inl h1
      · rcases List.mem_append.mp h1 with h2 | h2
        · exact Or.inl h2
        · rw [List.mem_singleton] at h2
          exact Or.inr (h2 ▸ List.mem_map.mpr ⟨x, List.mem_cons_self x rest, rfl⟩)
    · exact Or.inr (List.mem_cons_of_mem _ h1)

theorem foldl_set_keys_nodup {β γ : Type} (f : γ → Name) (g : γ → β) :
    ∀ (l : List γ) (init : List (Name × β)),
      (init.map (fun p => p.1)).Nodup →
      ((List.foldl (fun acc x => alistSet acc (f x) (g x)) init l).map (fun p => p.1)).Nodup := by
  intro l
  induction l with
  | nil => intro init h; exact h
  | cons x rest ih =>
    intro init h
    exact ih _ (alistSet_keys_nodup _ _ _ h)

theorem fold_keys_congr :
    ∀ (l : List (Name × Variable)) (a : States) (b : List (Name × Variable)),
      a.map (fun p => p.1) = b.map (fun p => p.1) →
      (List.foldl (fun st p => alistSet st p.1 (mkVarState p.2)) a l).map (fun p => p.1)
        = (List.foldl (fun vs p => alistSet vs p.1 p.2) b l).map (fun p => p.1) := by
  intro l
  induction l with
  | nil => intro a b h; exact h
  | cons q rest ih =>
    intro a b h
    refine ih _ _ ?_
    rw [alistSet_keys, alistSet_keys, h]

theorem load_keys_eq (schema : NeuroJSON) (cfg : EngineConfig) :
    (NeuroEngine.load schema cfg).states.map (fun p => p.1)
      = (NeuroEngine.load schema cfg).vars.map (fun p => p.1) := by
  rw [load_states, load_vars]
  exact fold_keys_congr schema.vars [] [] rfl

theorem foldl_alistSet_append_gen {β γ : Type} (f : γ → Name) (g : γ → β) :
    ∀ (l : List γ) (init : List (Name × β)),
      (∀ k ∈ l.map f, k ∉ init.map (fun p => p.1)) →
      (l.map f).Nodup →
      List.foldl (fun acc x => alistSet acc (f x) (g x)) init l
        = init ++ l.map (fun x => (f x, g x)) := by
  intro l
  induction l with
  | nil => intro init _ _; simp
  | cons q rest ih =>
    intro init hdis hnd
    simp only [List.map_cons, List.nodup_cons] at hnd
    have hq : f q ∉ init.map (fun p => p.1) :=
      hdis (f q) (List.mem_map.mpr ⟨q, List.mem_cons_self q rest, rfl⟩)
    have hdis2 : ∀ k ∈ rest.map f, k ∉ (init ++ [(f q, g q)]).map (fun p => p.1) := by
      intro k hk
      intro hc
      rw [List.map_append] at hc
      rcases List.mem_append.mp hc with hc1 | hc1
      · exact hdis k (by
          rcases List.mem_map.mp hk with ⟨p, hp, hpk⟩
          exact List.mem_map.mpr ⟨p, List.mem_cons_of_mem q hp, hpk⟩) hc1
      · simp only [List.map_cons, List.map_nil, List.mem_singleton] at hc1
        exact hnd.1 (hc1 ▸ hk)
    calc List.foldl (fun acc x => alistSet acc (f x) (g x)) init (q :: rest)
        = List.foldl (fun acc x => alistSet acc (f x) (g x))
            (alistSet init (f q) (g q)) rest := rfl
      _ = (init ++ [(f q, g q)]) ++ rest.map (fun x => (f x, g x)) := by
          rw [alistSet_of_not_mem _ _ _ hq]
          exact ih _ hdis2 hnd.2
      _ = init ++ (q :: rest).map (fun x => (f x, g x)) := by simp

theorem stripped_get :
    ∀ (m : List (Name × ℚ)) (nid : Name),
      (∀ k ∈ m.map (fun p => p.1), ∃ s, k = nodeTag ++ s) →
      alistGet (m.map (fun p => (var_name_to_node_id p.1, p.2))) nid
        = alistGet m (nodeTag ++ nid) := by
  intro m
  induction m with
  | nil => intro nid _; rfl
  | cons q rest ih =>
    intro nid hpre
    rcases hpre q.1 (List.mem_map.mpr ⟨q, List.mem_cons_self q rest, rfl⟩) with ⟨s, hs⟩
    have hrest : ∀ k ∈ rest.map (fun p => p.1), ∃ s, k = nodeTag ++ s :=
      fun k hk => hpre k (List.mem_map.mpr (by
        rcases List.mem_map.mp hk with ⟨p, hp, hpk⟩
        exact ⟨p, List.mem_cons_of_mem q hp, hpk⟩))
    show (if var_name_to_node_id q.1 = nid then some q.2
        else alistGet (rest.map (fun p => (var_name_to_node_id p.1, p.2))) nid)
      = (if q.1 = nodeTag ++ nid then some q.2 else alistGet rest (nodeTag ++ nid))
    rw [hs, strip_tag]
    by_cases hsn : s = nid
    · subst hsn
      rw [if_pos rfl, if_pos rfl]
    · rw [if_neg hsn, if_neg (fun hc => hsn (List.append_cancel_left hc)), ih nid hrest]

theorem back_map_get (m : List (Name × ℚ)) (nid : Name)
    (hnd : (m.map (fun p => p.1)).Nodup)
    (hpre : ∀ k ∈ m.map (fun p => p.1), ∃ s, k = nodeTag ++ s) :
    alistGet (back_map_results m) nid = alistGet m (nodeTag ++ nid) := by
  have hinj : ∀ x ∈ m.map (fun p => p.1), ∀ y ∈ m.map (fun p => p.1),
      var_name_to_node_id x = var_name_to_node_id y → x = y := by
    intro x hx y hy hxy
    rcases hpre x hx with ⟨sx, hsx⟩
    rcases hpre y hy with ⟨sy, hsy⟩
    subst hsx
    subst hsy
    rw [strip_tag, strip_tag] at hxy
    rw [hxy]
  have hnds : (m.map (fun p => var_name_to_node_id p.1)).Nodup := by
    have h1 : m.map (fun p => var_name_to_node_id p.1)
        = (m.map (fun p => p.1)).map var_name_to_node_id := by
      rw [List.map_map]
      rfl
    rw [h1]
    exact List.Nodup.map_on hinj hnd
  have hfold : back_map_results m
      = m.map (fun p => (var_name_to_node_id p.1, p.2)) := by
    unfold back_map_results
    have h2 := foldl_alistSet_append_gen (fun p : Name × ℚ => var_name_to_node_id p.1)
      (fun p : Name × ℚ => p.2) m [] (fun k _ => List.not_mem_nil k) hnds
    simpa using h2
  rw [hfold]
  exact stripped_get m nid hpre

theorem get_all_values_keys (e : NeuroEngine) :
    (get_all_values e).map (fun p => p.1) = e.states.map (fun p => p.1) := by
  unfold get_all_values
  rw [List.map_map]
  rfl

theorem load_keys_nodup (schema : NeuroJSON) (cfg : EngineConfig) :
    ((NeuroEngine.load schema cfg).states.map (fun p => p.1)).Nodup := by
  rw [load_states]
  exact foldl_set_keys_nodup (fun p : Name × Variable => p.1)
    (fun p : Name × Variable => mkVarState p.2) schema.vars [] List.nodup_nil

theorem load_bridge_keys_pre (ctx : ContextGraph) (cfg : EngineConfig) :
    ∀ k ∈ (NeuroEngine.load (to_neuro_json ctx) cfg).states.map (fun p => p.1),
      ∃ s, k = nodeTag ++ s := by
  intro k hk
  rw [load_keys_eq, load_vars] at hk
  rcases foldl_set_keys_sub (fun p : Name × Variable => p.1)
      (fun p : Name × Variable => p.2) (to_neuro_json ctx).vars [] k hk with h1 | h1
  · simp at h1
  · have h2 : k ∈ (to_neuro_json_vars ctx.nodes).map (fun p => p.1) := h1
    unfold to_neuro_json_vars at h2
    rcases foldl_set_keys_sub (fun p : Name × Node => node_to_var_name p.2)
        (fun p : Name × Node =>
          ({ type := some ("bool".toList), prior := some p.2.prior,
             locked := some p.2.is_locked } : Variable)) ctx.nodes [] k h2 with h3 | h3
    · simp at h3
    · rcases List.mem_map.mp h3 with ⟨p, _, hpk⟩
      exact ⟨p.2.id, hpk ▸ rfl⟩

theorem run_engine_keys (e : NeuroEngine) (ev : List (Name × ℚ)) (its : Option Nat)
    (e2 : NeuroEngine) (k : Nat) (h : run_engine e ev its = .ok (e2, k))
    (hsub : ∀ v ∈ e.vars.map (fun p => p.1), v ∈ e.states.map (fun p => p.1)) :
    e2.states.map (fun p => p.1) = e.states.map (fun p => p.1) := by
  unfold run_engine at h
  have hkeys : (apply_evidence ev (reset_to_priors e.vars e.states)).map (fun p => p.1)
      = e.states.map (fun p => p.1) := by
    rw [apply_evidence_keys, reset_keys]
  have h1 := run_loop_keys _ _ _ _ h (by
    intro v hv
    show v ∈ (apply_evidence ev (reset_to_priors e.vars e.states)).map (fun p => p.1)
    rw [hkeys]
    exact hsub v hv)
  rw [h1]
  exact hkeys

/-- C9 (counterexample): `query_node` does not return the centre's value —
on a two-node context centred on `a` (prior 3/10), querying `b` (prior 7/10,
no edges) returns `7/10`, the queried node's value, which differs from the
centre's `3/10`. -/
theorem c9_counterexample :
    query_node ctxTwoNodes ['b'] [] = .ok (7/10) ∧
    query_node ctxTwoNodes ctxTwoNodes.center_node_id [] = .ok (3/10) ∧
    ((7:ℚ)/10) ≠ 3/10 :=
  ⟨by with_unfolding_all decide, by with_unfolding_all decide, by norm_num⟩

/-- C9 (amended): for every subgraph, node id and evidence map,
`query_node(subgraph, node_id, evidence)` returns the truth value after
inference of the *queried* node (not the centre's): it equals the engine's
value for the variable `node_<node_id>` (with `0.5` when that variable does
not exist), routed through the forward and inverse name maps. -/
theorem c9_query_node_returns_queried (ctx : ContextGraph) (nid : Name)
    (ev : List (Name × ℚ)) :
    query_node ctx nid ev
      = ((NeuroEngine.load (to_neuro_json ctx) (service_config none)).run
           (map_evidence (to_neuro_json ctx).vars ev) none).map
          (fun vals => (alistGet vals (nodeTag ++ nid)).getD (1/2)) := by
  cases hre : run_engine (NeuroEngine.load (to_neuro_json ctx) (service_config none))
      (map_evidence (to_neuro_json ctx).vars ev) none with
  | error msg =>
    unfold query_node run_inference NeuroEngine.run
    simp only []
    rw [hre]
    rfl
  | ok pair =>
    unfold query_node run_inference NeuroEngine.run
    simp only []
    rw [hre]
    dsimp only [Except.map]
    have hkeys : (get_all_values pair.1).map (fun p => p.1)
        = (NeuroEngine.load (to_neuro_json ctx) (service_config none)).states.map
            (fun p => p.1) := by
      rw [get_all_values_keys]
      exact run_engine_keys _ _ _ pair.1 pair.2 (by rw [hre]) (by
        intro v hv
        rw [load_keys_eq]
        exact hv)
    rw [back_map_get (get_all_values pair.1) nid
      (by rw [hkeys]; exact load_keys_nodup _ _)
      (by rw [hkeys]; exact load_bridge_keys_pre ctx _)]

/-! ## Run congruence in the rules map (C10) -/

theorem gather_congr (e1 e2 : NeuroEngine) (st : States) :
    ∀ (rids : List Name),
      (∀ rid ∈ rids, alistGet e1.rules rid = alistGet e2.rules rid) →
      gather_contributions e1 st rids = gather_contributions e2 st rids := by
  intro rids
  induction rids with
  | nil => intro _; rfl
  | cons rid rest ih =>
    intro hr
    have hrest : ∀ x ∈ rest, alistGet e1.rules x = alistGet e2.rules x :=
      fun x hx => hr x (List.mem_cons_of_mem rid hx)
    simp only [gather_contributions]
    rw [← hr rid (List.mem_cons_self rid rest)]
    split
    · exact ih hrest
    · split
      · rfl
      · exact ih hrest
      · rw [ih hrest]

theorem forward_vars_congr (e1 e2 : NeuroEngine)
    (hcfg : e1.config = e2.config)
    (hout : e1.varToOutputRules = e2.varToOutputRules)
    (hrules : ∀ v l rid, alistGet e1.varToOutputRules v = some l → rid ∈ l →
        alistGet e1.rules rid = alistGet e2.rules rid) :
    ∀ (names : List Name) (st : States) (d : ℚ),
      forward_vars e1 names st d = forward_vars e2 names st d := by
  intro names
  induction names with
  | nil => intro st d; rfl
  | cons vn rest ih =>
    intro st d
    have hgather : gather_contributions e1 st ((alistGet e1.varToOutputRules vn).getD [])
        = gather_contributions e2 st ((alistGet e1.varToOutputRules vn).getD []) := by
      apply gather_congr
      intro rid hrid
      cases hl : alistGet e1.varToOutputRules vn with
      | none => rw [hl] at hrid; simp at hrid
      | some l =>
        refine hrules vn l rid hl ?_
        rw [hl] at hrid
        exact hrid
    simp only [forward_vars]
    rw [← hout, ← hcfg, ← hgather]
    split
    · exact ih st d
    · split
      · exact ih st d
      · split
        · rfl
        · split
          · exact ih st d
          · exact ih _ _

theorem apply_constraints_congr (e1 e2 : NeuroEngine)
    (hcons : e1.constraints = e2.constraints) (hst : e1.states = e2.states) :
    apply_constraints e1 = apply_constraints e2 := by
  unfold apply_constraints
  rw [hcons, hst]

theorem run_loop_congr :
    ∀ (n : Nat) (e1 e2 : NeuroEngine),
      e1.config = e2.config → e1.vars = e2.vars → e1.states = e2.states →
      e1.constraints = e2.constraints → e1.varToOutputRules = e2.varToOutputRules →
      (∀ v l rid, alistGet e1.varToOutputRules v = some l → rid ∈ l →
          alistGet e1.rules rid = alistGet e2.rules rid) →
      (run_loop e1 n).map (fun p => (p.1.states, p.2))
        = (run_loop e2 n).map (fun p => (p.1.states, p.2)) := by
  intro n
  induction n with
  | zero =>
    intro e1 e2 _ _ hst _ _ _
    simp only [run_loop, Except.map]
    rw [hst]
  | succ n ih =>
    intro e1 e2 hcfg hvars hst hcons hout hrules
    have hfp : forward_pass e1 = forward_pass e2 := by
      unfold forward_pass
      rw [hvars, hst]
      exact forward_vars_congr e1 e2 hcfg hout hrules _ _ _
    simp only [run_loop]
    rw [hfp]
    cases hf2 : forward_pass e2 with
    | error m => rfl
    | ok pr =>
      obtain ⟨st1, rd⟩ := pr
      have hac : apply_constraints { e1 with states := st1 }
          = apply_constraints { e2 with states := st1 } :=
        apply_constraints_congr _ _ hcons rfl
      dsimp only
      have hcond : (pymax rd (apply_constraints { e1 with states := st1 }).2
            < e1.config.convergence_threshold)
          ↔ (pymax rd (apply_constraints { e2 with states := st1 }).2
            < e2.config.convergence_threshold) := by
        rw [hac, hcfg]
      by_cases hc : pymax rd (apply_constraints { e2 with states := st1 }).2
          < e2.config.convergence_threshold
      · rw [if_pos hc, if_pos (hcond.mpr hc)]
        simp only [Except.map]
        rw [hac]
      · rw [if_neg hc, if_neg (fun hcc => hc (hcond.mp hcc))]
        have hih := ih { e1 with states := (apply_constraints { e1 with states := st1 }).1 }
          { e2 with states := (apply_constraints { e2 with states := st1 }).1 }
          hcfg hvars (by rw [hac]) hcons hout hrules
        cases h1 : run_loop
            { e1 with states := (apply_constraints { e1 with states := st1 }).1 } n with
        | error m =>
          cases h2 : run_loop
              { e2 with states := (apply_constraints { e2 with states := st1 }).1 } n with
          | error m2 =>
            rw [h1, h2] at hih
            simp only [Except.map] at hih
            cases hih
            rfl
          | ok pr2 =>
            rw [h1, h2] at hih
            simp only [Except.map] at hih
            exact absurd hih (by simp)
        | ok pr1 =>
          cases h2 : run_loop
              { e2 with states := (apply_constraints { e2 with states := st1 }).1 } n with
          | error m2 =>
            rw [h1, h2] at hih
            simp only [Except.map] at hih
            exact absurd hih (by simp)
          | ok pr2 =>
            rw [h1, h2] at hih
            simp only [Except.map, Except.ok.injEq, Prod.mk.injEq] at hih
            obtain ⟨hs, hk⟩ := hih
            simp only [Except.map, Except.ok.injEq, Prod.mk.injEq]
            exact ⟨hs, by rw [hk]⟩

theorem run_congr (e1 e2 : NeuroEngine)
    (hcfg : e1.config = e2.config) (hvars : e1.vars = e2.vars)
    (hst : e1.states = e2.states) (hcons : e1.constraints = e2.constraints)
    (hout : e1.varToOutputRules = e2.varToOutputRules)
    (hrules : ∀ v l rid, alistGet e1.varToOutputRules v = some l → rid ∈ l →
        alistGet e1.rules rid = alistGet e2.rules rid) :
    ∀ (ev : List (Name × ℚ)) (its : Option Nat),
      NeuroEngine.run e1 ev its = NeuroEngine.run e2 ev its := by
  intro ev its
  unfold NeuroEngine.run run_engine
  simp only []
  have hS : ({ e1 with states := apply_evidence ev (reset_to_priors e1.vars e1.states) }
        : NeuroEngine).states
      = ({ e2 with states := apply_evidence ev (reset_to_priors e2.vars e2.states) }
        : NeuroEngine).states := by
    show apply_evidence ev (reset_to_priors e1.vars e1.states)
        = apply_evidence ev (reset_to_priors e2.vars e2.states)
    rw [hvars, hst]
  have hloop := run_loop_congr (effective_iterations e1.config its)
    { e1 with states := apply_evidence ev (reset_to_priors e1.vars e1.states) }
    { e2 with states := apply_evidence ev (reset_to_priors e2.vars e2.states) }
    hcfg hvars hS hcons hout hrules
  nth_rewrite 2 [show effective_iterations e1.config its
      = effective_iterations e2.config its from by rw [hcfg]] at hloop
  cases h1 : run_loop
      { e1 with states := apply_evidence ev (reset_to_priors e1.vars e1.states) }
      (effective_iterations e1.config its) with
  | error m =>
    cases h2 : run_loop
        { e2 with states := apply_evidence ev (reset_to_priors e2.vars e2.states) }
        (effective_iterations e2.config its) with
    | error m2 =>
      rw [h1, h2] at hloop
      simp only [Except.map] at hloop
      cases hloop
      rfl
    | ok pr2 =>
      rw [h1, h2] at hloop
      simp only [Except.map] at hloop
      exact absurd hloop (by simp)
  | ok pr1 =>
    cases h2 : run_loop
        { e2 with states := apply_evidence ev (reset_to_priors e2.vars e2.states) }
        (effective_iterations e2.config its) with
    | error m2 =>
      rw [h1, h2] at hloop
      simp only [Except.map] at hloop
      exact absurd hloop (by simp)
    | ok pr2 =>
      rw [h1, h2] at hloop
      simp only [Except.map, Except.ok.injEq, Prod.mk.injEq] at hloop
      obtain ⟨hs, _⟩ := hloop
      simp only [Except.map, Except.ok.injEq]
      unfold get_all_values
      rw [hs]

/-! ## The output index and an inert rule (C10) -/

theorem outIndexStep_keys (idx : List (Name × List Name)) (rule : Rule) :
    (outIndexStep idx rule).map (fun p => p.1) = idx.map (fun p => p.1) := by
  unfold outIndexStep
  split
  · rfl
  · split
    · split
      · next l hl =>
        refine alistSet_keys_of_mem _ _ _ ?_
        rw [← alistGet_isSome_iff, hl]
        rfl
      · rfl
    · rfl

theorem foldl_outIndexStep_keys :
    ∀ (rules : List Rule) (idx : List (Name × List Name)),
      (List.foldl outIndexStep idx rules).map (fun p => p.1) = idx.map (fun p => p.1) := by
  intro rules
  induction rules with
  | nil => intro idx; rfl
  | cons q rest ih =>
    intro idx
    rw [List.foldl_cons, ih, outIndexStep_keys]

theorem outIndexStep_skip (idx : List (Name × List Name)) (rule : Rule) (ov : Name)
    (hout : rule.output = some ov) (hov : ov ∉ idx.map (fun p => p.1)) :
    outIndexStep idx rule = idx := by
  unfold outIndexStep
  rw [hout]
  dsimp only
  by_cases hne : ov ≠ []
  · rw [if_pos hne, alistGet_eq_none _ _ hov]
  · rw [if_neg hne]

theorem foldl_out_content :
    ∀ (rules : List Rule) (idx : List (Name × List Name)) (v : Name)
      (l : List Name) (rid : Name),
      alistGet (List.foldl outIndexStep idx rules) v = some l → rid ∈ l →
      rid ∈ rules.map Rule.id ∨ ∃ l0, alistGet idx v = some l0 ∧ rid ∈ l0 := by
  intro rules
  induction rules with
  | nil => intro idx v l rid h hr; exact Or.inr ⟨l, h, hr⟩
  | cons q rest ih =>
    intro idx v l rid h hr
    rcases ih _ _ _ _ h hr with h1 | ⟨l0, hl0, hrl0⟩
    · exact Or.inl (List.mem_cons_of_mem _ h1)
    · unfold outIndexStep at hl0
      split at hl0
      · exact Or.inr ⟨l0, hl0, hrl0⟩
      · next ov hov =>
        split at hl0
        · split at hl0
          · next lq hlq =>
            by_cases hvov : v = ov
            · subst hvov
              rw [alistGet_alistSet_self] at hl0
              cases hl0
              rcases List.mem_append.mp hrl0 with h2 | h2
              · exact Or.inr ⟨lq, hlq, h2⟩
              · rw [List.mem_singleton] at h2
                exact Or.inl (h2 ▸ List.mem_map.mpr ⟨q, List.mem_cons_self q rest, rfl⟩)
            · rw [alistGet_alistSet_ne _ _ _ _ hvov] at hl0
              exact Or.inr ⟨l0, hl0, hrl0⟩
          · exact Or.inr ⟨l0, hl0, hrl0⟩
        · exact Or.inr ⟨l0, hl0, hrl0⟩

theorem foldl_setById_get_ne :
    ∀ (l : List Rule) (a b : List (Name × Rule)) (x : Name),
      (∀ k, k ≠ x → alistGet a k = alistGet b k) →
      ∀ k, k ≠ x →
        alistGet (List.foldl (fun rs r2 => alistSet rs r2.id r2) a l) k
          = alistGet (List.foldl (fun rs r2 => alistSet rs r2.id r2) b l) k := by
  intro l
  induction l with
  | nil => intro a b x hab k hk; exact hab k hk
  | cons q rest ih =>
    intro a b x hab k hk
    refine ih _ _ x ?_ k hk
    intro k2 hk2
    by_cases hq : k2 = q.id
    · subst hq
      rw [alistGet_alistSet_self, alistGet_alistSet_self]
    · rw [alistGet_alistSet_ne _ _ _ _ hq, alistGet_alistSet_ne _ _ _ _ hq]
      exact hab k2 hk2

theorem foldl_setById_get_frozen :
    ∀ (l : List Rule) (init : List (Name × Rule)) (rid : Name),
      rid ∉ l.map Rule.id →
      alistGet (List.foldl (fun rs r2 => alistSet rs r2.id r2) init l) rid
        = alistGet init rid := by
  intro l
  induction l with
  | nil => intro init rid _; rfl
  | cons q rest ih =>
    intro init rid h
    simp only [List.map_cons, List.mem_cons] at h
    push_neg at h
    rw [List.foldl_cons, ih _ _ h.2, alistGet_alistSet_ne _ _ _ _ h.1]

theorem inert_load_out_eq (cfg : EngineConfig) (vars0 : List (Name × Variable))
    (cons0 : List Constraint) (rs1 rs2 : List Rule) (r : Rule) (ov : Name)
    (hout : r.output = some ov) (hov : ov ∉ vars0.map (fun p => p.1)) :
    (NeuroEngine.load ⟨vars0, rs1 ++ r :: rs2, cons0⟩ cfg).varToOutputRules
      = (NeuroEngine.load ⟨vars0, rs1 ++ rs2, cons0⟩ cfg).varToOutputRules := by
  rw [load_out, load_out]
  dsimp only
  rw [List.foldl_append, List.foldl_append, List.foldl_cons]
  have hskip : outIndexStep
      (List.foldl outIndexStep
        (List.foldl (fun idx p => alistSet idx p.1 []) [] vars0) rs1) r
      = List.foldl outIndexStep
        (List.foldl (fun idx p => alistSet idx p.1 []) [] vars0) rs1 := by
    apply outIndexStep_skip _ _ ov hout
    rw [foldl_outIndexStep_keys]
    intro hc
    rcases foldl_set_keys_sub (fun p : Name × Variable => p.1)
        (fun _ : Name × Variable => ([] : List Name)) vars0 [] ov hc with h1 | h1
    · simp at h1
    · exact hov h1
  rw [hskip]

theorem inert_not_in_index (cfg : EngineConfig) (vars0 : List (Name × Variable))
    (cons0 : List Constraint) (rs1 rs2 : List Rule) (r : Rule) (ov : Name)
    (hid : r.id ∉ (rs1 ++ rs2).map Rule.id)
    (hout : r.output = some ov) (hov : ov ∉ vars0.map (fun p => p.1)) :
    ∀ v l, alistGet (NeuroEngine.load ⟨vars0, rs1 ++ r :: rs2, cons0⟩ cfg).varToOutputRules v
      = some l → r.id ∉ l := by
  intro v l hl hmem
  rw [inert_load_out_eq cfg vars0 cons0 rs1 rs2 r ov hout hov, load_out] at hl
  dsimp only at hl
  rcases foldl_out_content _ _ v l r.id hl hmem with h1 | ⟨l0, hl0, hrl0⟩
  · exact hid h1
  · have hbase : ∀ p ∈ List.foldl (fun idx p => alistSet idx p.1 ([] : List Name)) [] vars0,
        p.2 = ([] : List Name) :=
      foldl_set_forall (fun p : Name × Variable => p.1)
        (fun _ : Name × Variable => ([] : List Name)) (fun x => x = []) vars0 []
        (by simp) (fun _ _ => rfl)
    have hl0nil : l0 = [] := hbase (v, l0) (alistGet_mem _ _ _ hl0)
    rw [hl0nil] at hrl0
    simp at hrl0

theorem inert_rules_ne (cfg : EngineConfig) (vars0 : List (Name × Variable))
    (cons0 : List Constraint) (rs1 rs2 : List Rule) (r : Rule) :
    ∀ k, k ≠ r.id →
      alistGet (NeuroEngine.load ⟨vars0, rs1 ++ r :: rs2, cons0⟩ cfg).rules k
        = alistGet (NeuroEngine.load ⟨vars0, rs1 ++ rs2, cons0⟩ cfg).rules k := by
  intro k hk
  rw [load_rules, load_rules]
  dsimp only
  rw [List.foldl_append, List.foldl_append, List.foldl_cons]
  exact foldl_setById_get_ne rs2 _ _ r.id
    (fun k2 hk2 => alistGet_alistSet_ne _ _ _ _ hk2) k hk

theorem inert_rules_self (cfg : EngineConfig) (vars0 : List (Name × Variable))
    (cons0 : List Constraint) (rs1 rs2 : List Rule) (r : Rule)
    (hid : r.id ∉ (rs1 ++ rs2).map Rule.id) :
    alistGet (NeuroEngine.load ⟨vars0, rs1 ++ r :: rs2, cons0⟩ cfg).rules r.id = some r := by
  rw [load_rules]
  dsimp only
  rw [List.foldl_append, List.foldl_cons]
  have hid2 : r.id ∉ rs2.map Rule.id := by
    intro hc
    apply hid
    rw [List.map_append]
    exact List.mem_append.mpr (Or.inr hc)
  rw [foldl_setById_get_frozen rs2 _ _ hid2, alistGet_alistSet_self]

/-! ## Training never touches an unindexed rule (C10) -/

theorem update_rule_weight_get_ne (cfg : EngineConfig) (st : States) (err : ℚ)
    (inputs : List (Name × ℚ)) (rules : List (Name × Rule)) (rid k : Name)
    (hk : k ≠ rid) :
    alistGet (update_rule_weight cfg st err inputs rules rid) k = alistGet rules k := by
  unfold update_rule_weight
  split
  · rfl
  · split
    · rfl
    · exact alistGet_alistSet_ne _ _ _ _ hk

theorem foldl_update_get (cfg : EngineConfig) (st : States) (err : ℚ)
    (inputs : List (Name × ℚ)) :
    ∀ (rids : List Name) (rules : List (Name × Rule)) (x : Name),
      (∀ rid ∈ rids, rid ≠ x) →
      alistGet (List.foldl (update_rule_weight cfg st err inputs) rules rids) x
        = alistGet rules x := by
  intro rids
  induction rids with
  | nil => intro rules x _; rfl
  | cons rid rest ih =>
    intro rules x hr
    rw [List.foldl_cons, ih _ _ (fun r2 h2 => hr r2 (List.mem_cons_of_mem rid h2)),
      update_rule_weight_get_ne]
    exact fun hc => hr rid (List.mem_cons_self rid rest) hc.symm

theorem update_weights_get_frozen (e : NeuroEngine) (tv : Name) (err : ℚ)
    (inputs : List (Name × ℚ)) (x : Name)
    (hidx : ∀ v l, alistGet e.varToOutputRules v = some l → x ∉ l) :
    alistGet (update_weights e tv err inputs).rules x = alistGet e.rules x := by
  unfold update_weights
  dsimp only
  apply foldl_update_get
  intro rid hrid
  cases hl : alistGet e.varToOutputRules tv with
  | none => rw [hl] at hrid; simp at hrid
  | some l =>
    rw [hl] at hrid
    intro hc
    exact hidx tv l hl (hc ▸ hrid)

theorem train_targets_frozen (inputs output : List (Name × ℚ)) :
    ∀ (targets : List (Name × ℚ)) (e : NeuroEngine) (loss : ℚ) (x : Name),
      (∀ v l, alistGet e.varToOutputRules v = some l → x ∉ l) →
      alistGet (train_targets inputs output targets e loss).1.rules x = alistGet e.rules x ∧
      (train_targets inputs output targets e loss).1.varToOutputRules
        = e.varToOutputRules := by
  intro targets
  induction targets with
  | nil => intro e loss x _; exact ⟨rfl, rfl⟩
  | cons t rest ih =>
    intro e loss x hidx
    obtain ⟨tv, tval⟩ := t
    simp only [train_targets]
    have hupd : (update_weights e tv (tval - (alistGet output tv).getD (1/2)) inputs
          ).varToOutputRules = e.varToOutputRules := rfl
    obtain ⟨h1, h2⟩ := ih (update_weights e tv (tval - (alistGet output tv).getD (1/2))
        inputs) (loss + (tval - (alistGet output tv).getD (1/2)) ^ 2) x
      (by rw [hupd]; exact hidx)
    refine ⟨?_, by rw [h2, hupd]⟩
    rw [h1]
    exact update_weights_get_frozen e tv _ inputs x hidx

theorem run_engine_static (e : NeuroEngine) (ev : List (Name × ℚ)) (its : Option Nat)
    (e2 : NeuroEngine) (k : Nat) (h : run_engine e ev its = .ok (e2, k)) :
    e2.rules = e.rules ∧ e2.varToOutputRules = e.varToOutputRules := by
  unfold run_engine at h
  rcases run_loop_fields _ _ _ _ h with ⟨_, _, hr, _, _, hvo⟩
  exact ⟨hr, hvo⟩

theorem train_epoch_frozen :
    ∀ (data : List TrainingData) (e : NeuroEngine) (loss : ℚ) (e2 : NeuroEngine)
      (loss2 : ℚ) (x : Name),
      train_epoch data e loss = .ok (e2, loss2) →
      (∀ v l, alistGet e.varToOutputRules v = some l → x ∉ l) →
      alistGet e2.rules x = alistGet e.rules x ∧
      e2.varToOutputRules = e.varToOutputRules := by
  intro data
  induction data with
  | nil =>
    intro e loss e2 loss2 x h _
    simp only [train_epoch, Except.ok.injEq, Prod.mk.injEq] at h
    obtain ⟨h1, _⟩ := h
    subst h1
    exact ⟨rfl, rfl⟩
  | cons ex rest ih =>
    intro e loss e2 loss2 x h hidx
    simp only [train_epoch] at h
    split at h
    · exact absurd h (by simp)
    · next e1 k heq =>
      obtain ⟨hr1, hvo1⟩ := run_engine_static _ _ _ _ _ heq
      have hidx1 : ∀ v l, alistGet e1.varToOutputRules v = some l → x ∉ l := by
        rw [hvo1]
        exact hidx
      obtain ⟨ht1, ht2⟩ := train_targets_frozen ex.inputs (get_all_values e1)
        ex.targets e1 loss x hidx1
      have hidxT : ∀ v l,
          alistGet (train_targets ex.inputs (get_all_values e1) ex.targets e1 loss
            ).1.varToOutputRules v = some l → x ∉ l := by
        rw [ht2, hvo1]
        exact hidx
      obtain ⟨hA, hB⟩ := ih _ _ _ _ x h hidxT
      constructor
      · rw [hA, ht1, hr1]
      · rw [hB, ht2, hvo1]

theorem train_loop_frozen :
    ∀ (n : Nat) (data : List TrainingData) (e : NeuroEngine) (fl : ℚ)
      (e2 : NeuroEngine) (l2 : ℚ) (x : Name),
      train_loop data e n fl = .ok (e2, l2) →
      (∀ v l, alistGet e.varToOutputRules v = some l → x ∉ l) →
      alistGet e2.rules x = alistGet e.rules x ∧
      e2.varToOutputRules = e.varToOutputRules := by
  intro n
  induction n with
  | zero =>
    intro data e fl e2 l2 x h _
    simp only [train_loop, Except.ok.injEq, Prod.mk.injEq] at h
    obtain ⟨h1, _⟩ := h
    subst h1
    exact ⟨rfl, rfl⟩
  | succ n ih =>
    intro data e fl e2 l2 x h hidx
    simp only [train_loop] at h
    split at h
    · exact absurd h (by simp)
    · next e1 raw heq =>
      obtain ⟨hA1, hB1⟩ := train_epoch_frozen data e 0 e1 raw x heq hidx
      have hidx1 : ∀ v l, alistGet e1.varToOutputRules v = some l → x ∉ l := by
        rw [hB1]
        exact hidx
      split at h <;> split at h <;>
        first
        | (simp only [Except.ok.injEq, Prod.mk.injEq] at h;
           obtain ⟨h1, _⟩ := h;
           subst h1;
           exact ⟨hA1, hB1⟩)
        | (obtain ⟨hA, hB⟩ := ih data e1 _ e2 l2 x h hidx1;
           exact ⟨by rw [hA, hA1], by rw [hB, hB1]⟩)

/-- C10 (confirmed): a rule whose `output` names an undeclared variable is
completely inert. If a schema's rule list is `rs1 ++ r :: rs2` where `r.id`
does not recur among the other rules (rule identifiers are unique within a
schema) and `r.output` is a name `ov` not declared among the schema's
variables, then (i) `r.id` appears in no list of the output index built at
load, (ii) for every evidence map and iterations argument `run` returns the
same result as on the schema without `r`, and (iii) after every successful
`train` the stored rule `r` — in particular its weight — is unchanged. -/
theorem c10_inert_rule (cfg : EngineConfig) (vars0 : List (Name × Variable))
    (cons0 : List Constraint) (rs1 rs2 : List Rule) (r : Rule) (ov : Name)
    (hid : r.id ∉ (rs1 ++ rs2).map Rule.id)
    (hout : r.output = some ov) (hov : ov ∉ vars0.map (fun p => p.1)) :
    (∀ v l, alistGet (NeuroEngine.load ⟨vars0, rs1 ++ r :: rs2, cons0⟩ cfg).varToOutputRules v
        = some l → r.id ∉ l) ∧
    (∀ (ev : List (Name × ℚ)) (its : Option Nat),
      NeuroEngine.run (NeuroEngine.load ⟨vars0, rs1 ++ r :: rs2, cons0⟩ cfg) ev its
        = NeuroEngine.run (NeuroEngine.load ⟨vars0, rs1 ++ rs2, cons0⟩ cfg) ev its) ∧
    (∀ (data : List TrainingData) (epochs : Nat) (e2 : NeuroEngine) (l2 : ℚ),
      NeuroEngine.train (NeuroEngine.load ⟨vars0, rs1 ++ r :: rs2, cons0⟩ cfg) data epochs
        = .ok (e2, l2) →
      alistGet e2.rules r.id = some r) := by
  have hidx := inert_not_in_index cfg vars0 cons0 rs1 rs2 r ov hid hout hov
  refine ⟨hidx, ?_, ?_⟩
  · intro ev its
    refine run_congr _ _ ?_ ?_ ?_ ?_ ?_ ?_ ev its
    · rw [load_config, load_config]
    · rw [load_vars, load_vars]
    · rw [load_states, load_states]
    · rw [load_constraints, load_constraints]
    · exact inert_load_out_eq cfg vars0 cons0 rs1 rs2 r ov hout hov
    · intro v l rid hl hmem
      have hne : rid ≠ r.id := fun hc => hidx v l hl (hc ▸ hmem)
      exact inert_rules_ne cfg vars0 cons0 rs1 rs2 r rid hne
  · intro data epochs e2 l2 htrain
    simp only [NeuroEngine.train] at htrain
    have hfr := train_loop_frozen epochs data
      (NeuroEngine.load ⟨vars0, rs1 ++ r :: rs2, cons0⟩ cfg) 0 e2 l2 r.id htrain hidx
    rw [hfr.1]
    exact inert_rules_self cfg vars0 cons0 rs1 rs2 r hid

/-- C10 witness: on the concrete schema `⟨wVarsC10, [wRuleC10], []⟩` — one
declared variable `q`, one rule outputting to the undeclared `z` — `run`
agrees with the rule-free schema, and training one epoch on empty data leaves
the rule stored with its original weight. -/
theorem c10_witness :
    NeuroEngine.run eC10 [(['q'], (1 : ℚ))] none
      = NeuroEngine.run (NeuroEngine.load ⟨wVarsC10, [], []⟩ create_default_config)
          [(['q'], (1 : ℚ))] none ∧
    alistGet eC10.rules wRuleC10.id = some wRuleC10 :=
  ⟨(c10_inert_rule create_default_config wVarsC10 [] [] [] wRuleC10 ['z']
      (by simp) rfl (by with_unfolding_all decide)).2.1 [(['q'], 1)] none,
   (c10_inert_rule create_default_config wVarsC10 [] [] [] wRuleC10 ['z']
      (by simp) rfl (by with_unfolding_all decide)).2.2 [] 1 eC10 0
      (by with_unfolding_all decide)⟩
